import Mathlib

/-!
Verification of the agent-challenge JavaScript library (src/src/agentchallenge.js,
final version of the file, lines 604-2709).

Strings are modelled as `List Char`.  JavaScript string primitives (trim,
toLowerCase, split, join, regex replaces used by the library) are embedded as
executable Lean functions.
-/

set_option maxHeartbeats 1000000

namespace AgentChallenge

abbrev Str := List Char

/-- Convert a Lean string literal to the `List Char` model. -/
def cs (s : String) : Str := s.data

/-- The single-quote character `'`. -/
def squote : Char := Char.ofNat 39

/-- Whitespace class used by JS `trim()` and the regex class `\s`
(space, tab, LF, CR, vertical tab, form feed, NBSP, BOM), by code point. -/
def isWsChar (c : Char) : Bool :=
  c.toNat = 32 || c.toNat = 9 || c.toNat = 10 || c.toNat = 13 ||
  c.toNat = 11 || c.toNat = 12 || c.toNat = 0xa0 || c.toNat = 0xfeff

/-- JS `toLowerCase` restricted to the ASCII range (the only characters the
library produces); character comparisons are code-point comparisons. -/
def jsToLower (c : Char) : Char :=
  if 65 ≤ c.toNat ∧ c.toNat ≤ 90 then Char.ofNat (c.toNat + 32) else c

def lowerStr (l : Str) : Str := l.map jsToLower

def trimLeft (l : Str) : Str := l.dropWhile isWsChar

def trimRight (l : Str) : Str := (trimLeft l.reverse).reverse

/-- JS `String.prototype.trim`. -/
def jsTrim (l : Str) : Str := trimRight (trimLeft l)

def isQuoteChar (c : Char) : Bool := c.toNat = 34 || c.toNat = 39

/-- The guard of the quote-stripping branch of `normalizeAnswer`:
`s.length >= 2 && s[0] === s[s.length-1] && (s[0] === '"' || s[0] === "'")`. -/
def quoteCond (l : Str) : Bool :=
  2 ≤ l.length &&
    (match l.head?, l.getLast? with
     | some a, some b => a = b && isQuoteChar a
     | _, _ => false)

/-- JS `s.slice(1, -1)`. -/
def dropEnds (l : Str) : Str := (l.drop 1).dropLast

/-- `if (s.length >= 2 && ...quote...) s = s.slice(1,-1).trim()`. -/
def stageQuote (l : Str) : Str := if quoteCond l then jsTrim (dropEnds l) else l

def isPunctChar (c : Char) : Bool := c.toNat = 46 || c.toNat = 33

/-- JS `s.replace(/[.!]+$/, '')`: remove the maximal trailing run of `.`/`!`. -/
def dropTrailingPunct (l : Str) : Str := (l.reverse.dropWhile isPunctChar).reverse

/-- `s = s.replace(/[.!]+$/, '').trim()`. -/
def stagePunct (l : Str) : Str := jsTrim (dropTrailingPunct l)

/-- JS `s.split(',')` (splitting on a single character). -/
def splitComma : Str → List Str
  | [] => [[]]
  | c :: rest =>
    if c = ',' then [] :: splitComma rest
    else
      match splitComma rest with
      | [] => [[c]]
      | p :: ps => (c :: p) :: ps

/-- JS `parts.join(', ')`. -/
def joinCommaSpace : List Str → Str
  | [] => []
  | [p] => p
  | p :: ps => p ++ ',' :: ' ' :: joinCommaSpace ps

/-- `if (s.includes(',')) s = s.split(',').map(p => p.trim()).join(', ')`. -/
def stageComma (l : Str) : Str :=
  if l.contains ',' then joinCommaSpace ((splitComma l).map jsTrim) else l

/-- Helper for `collapseWs`; the Bool records whether the previous character
was whitespace (in which case further whitespace is dropped). -/
def collapseAux : Bool → Str → Str
  | _, [] => []
  | prevWs, c :: rest =>
    if isWsChar c then
      (if prevWs then collapseAux true rest else ' ' :: collapseAux true rest)
    else c :: collapseAux false rest

/-- JS `s.replace(/\s+/g, ' ')`: every maximal whitespace run becomes one space. -/
def collapseWs (l : Str) : Str := collapseAux false l

/-- `normalizeAnswer` from agentchallenge.js (for string input):
trim + lowercase, strip one wrapping quote pair, strip trailing `.`/`!` runs,
canonicalize comma lists, collapse whitespace runs. -/
def normalizeAnswer (l : Str) : Str :=
  collapseWs (stageComma (stagePunct (stageQuote (lowerStr (jsTrim l)))))

/-- `normalizeAnswer` on an arbitrary value: non-string input returns `''`
(`if (typeof answer !== 'string') return ''`).  `none` models a non-string
argument. -/
def normalizeAnswerVal : Option Str → Str
  | none => []
  | some s => normalizeAnswer s

-- ── Character-level lemmas ───────────────────────────

theorem char_eq_iff (a b : Char) : a = b ↔ a.toNat = b.toNat :=
  ⟨fun h => h ▸ rfl, fun h => Char.ext (UInt32.ext h)⟩

theorem char_le_iff (a b : Char) : (a ≤ b) ↔ a.toNat ≤ b.toNat := Iff.rfl

theorem toNat_ofNat_valid {n : Nat} (h : n.isValidChar) : (Char.ofNat n).toNat = n := by
  simp [Char.ofNat, Char.ofNatAux, h, Char.toNat, UInt32.toNat, UInt32.ofNatCore]

theorem isValidChar_of_lt {n : Nat} (h : n < 0xd800) : n.isValidChar := Or.inl h

theorem char_toNat_lt (c : Char) : c.toNat < 0x110000 := by
  rcases c.valid with h1 | h1
  · exact Nat.lt_trans h1 (by omega)
  · exact h1.2

theorem jsToLower_of_upper {c : Char} (h : 65 ≤ c.toNat ∧ c.toNat ≤ 90) :
    (jsToLower c).toNat = c.toNat + 32 := by
  rw [jsToLower, if_pos h]
  exact toNat_ofNat_valid (isValidChar_of_lt (by omega))

theorem jsToLower_of_not_upper {c : Char} (h : ¬(65 ≤ c.toNat ∧ c.toNat ≤ 90)) :
    jsToLower c = c := by
  rw [jsToLower, if_neg h]

theorem jsToLower_idem (c : Char) : jsToLower (jsToLower c) = jsToLower c := by
  by_cases h : 65 ≤ c.toNat ∧ c.toNat ≤ 90
  · apply jsToLower_of_not_upper
    rw [jsToLower_of_upper h]
    omega
  · rw [jsToLower_of_not_upper h, jsToLower_of_not_upper h]

theorem isWsChar_iff (c : Char) :
    isWsChar c = true ↔
      (c.toNat = 32 ∨ c.toNat = 9 ∨ c.toNat = 10 ∨ c.toNat = 13 ∨
       c.toNat = 11 ∨ c.toNat = 12 ∨ c.toNat = 0xa0 ∨ c.toNat = 0xfeff) := by
  simp [isWsChar, Bool.or_eq_true, or_assoc]

theorem jsToLower_of_ws {c : Char} (h : isWsChar c = true) : jsToLower c = c := by
  rw [isWsChar_iff] at h
  apply jsToLower_of_not_upper
  omega

theorem isWsChar_jsToLower (c : Char) : isWsChar (jsToLower c) = isWsChar c := by
  by_cases h : 65 ≤ c.toNat ∧ c.toNat ≤ 90
  · have h1 : isWsChar c = false := by
      rw [Bool.eq_false_iff]
      intro hw
      rw [isWsChar_iff] at hw
      omega
    have h2 : isWsChar (jsToLower c) = false := by
      rw [Bool.eq_false_iff]
      intro hw
      rw [isWsChar_iff, jsToLower_of_upper h] at hw
      omega
    rw [h1, h2]
  · rw [jsToLower_of_not_upper h]

-- ── Trim lemmas ──────────────────────────────────────

/-- Every character of the list is whitespace. -/
def AllWs (l : Str) : Prop := ∀ c ∈ l, isWsChar c = true

theorem trimLeft_nil : trimLeft [] = [] := rfl

theorem trimLeft_cons_ws {c : Char} (h : isWsChar c = true) (l : Str) :
    trimLeft (c :: l) = trimLeft l := by
  simp [trimLeft, List.dropWhile_cons, h]

theorem trimLeft_cons_not_ws {c : Char} (h : isWsChar c = false) (l : Str) :
    trimLeft (c :: l) = c :: l := by
  simp [trimLeft, List.dropWhile_cons, h]

theorem trimLeft_ws_append {pre : Str} (h : AllWs pre) (l : Str) :
    trimLeft (pre ++ l) = trimLeft l := by
  induction pre with
  | nil => rfl
  | cons c rest ih =>
    rw [List.cons_append, trimLeft_cons_ws (h c (by simp)) (rest ++ l)]
    exact ih (fun d hd => h d (by simp [hd]))

theorem trimLeft_head_not_ws {l : Str} {c : Char} (h : (trimLeft l).head? = some c) :
    isWsChar c = false := by
  induction l with
  | nil => simp [trimLeft] at h
  | cons d rest ih =>
    by_cases hd : isWsChar d
    · rw [trimLeft_cons_ws hd] at h; exact ih h
    · rw [trimLeft_cons_not_ws (by simpa using hd)] at h
      simp only [List.head?_cons, Option.some.injEq] at h
      subst h; simpa using hd

theorem trimLeft_eq_self {l : Str} (h : ∀ c, l.head? = some c → isWsChar c = false) :
    trimLeft l = l := by
  cases l with
  | nil => rfl
  | cons c rest => exact trimLeft_cons_not_ws (h c rfl) rest

theorem trimLeft_idem (l : Str) : trimLeft (trimLeft l) = trimLeft l :=
  trimLeft_eq_self (fun _ h => trimLeft_head_not_ws h)

theorem trimRight_nil : trimRight [] = [] := rfl

theorem trimRight_append_ws {post : Str} (h : AllWs post) (l : Str) :
    trimRight (l ++ post) = trimRight l := by
  unfold trimRight
  rw [List.reverse_append, trimLeft_ws_append (fun c hc => h c (by simpa using hc))]

theorem trimRight_last_not_ws {l : Str} {c : Char} (h : (trimRight l).getLast? = some c) :
    isWsChar c = false := by
  unfold trimRight at h
  rw [List.getLast?_reverse] at h
  exact trimLeft_head_not_ws h

theorem trimRight_eq_self {l : Str} (h : ∀ c, l.getLast? = some c → isWsChar c = false) :
    trimRight l = l := by
  unfold trimRight
  rw [trimLeft_eq_self, List.reverse_reverse]
  intro c hc
  rw [List.head?_reverse] at hc
  exact h c hc

theorem trimRight_idem (l : Str) : trimRight (trimRight l) = trimRight l :=
  trimRight_eq_self (fun _ h => trimRight_last_not_ws h)

theorem trimRight_cons (c : Char) (l : Str) :
    trimRight (c :: l) =
      if trimRight l = [] then (if isWsChar c then [] else [c]) else c :: trimRight l := by
  have hrw : (c :: l).reverse = l.reverse ++ [c] := by simp
  have hsplit : (l.reverse ++ [c]).dropWhile isWsChar =
      if (l.reverse.dropWhile isWsChar).isEmpty then [c].dropWhile isWsChar
      else l.reverse.dropWhile isWsChar ++ [c] := by
    simp [List.dropWhile_append]
  unfold trimRight
  rw [hrw]
  unfold trimLeft at hsplit ⊢
  rw [hsplit]
  by_cases h : (l.reverse.dropWhile isWsChar).isEmpty
  · rw [if_pos h]
    have h2 : (l.reverse.dropWhile isWsChar).reverse = [] := by
      simp_all [List.isEmpty_iff]
    rw [if_pos h2, List.dropWhile_cons]
    by_cases hc : isWsChar c
    · simp [hc]
    · simp [hc]
  · rw [if_neg h]
    have h2 : ¬ (l.reverse.dropWhile isWsChar).reverse = [] := by
      simp_all [List.isEmpty_iff]
    rw [if_neg h2]
    simp

theorem trimLeft_trimRight_comm (l : Str) :
    trimLeft (trimRight l) = trimRight (trimLeft l) := by
  induction l with
  | nil => rfl
  | cons c rest ih =>
    by_cases hc : isWsChar c
    · rw [trimLeft_cons_ws hc, ← ih, trimRight_cons]
      by_cases hr : trimRight rest = []
      · rw [if_pos hr, if_pos hc, hr]
      · rw [if_neg hr, trimLeft_cons_ws hc]
    · have hc' : isWsChar c = false := by simpa using hc
      rw [trimLeft_cons_not_ws hc', trimRight_cons]
      by_cases hr : trimRight rest = []
      · rw [if_pos hr, if_neg (by simp [hc'])]
        exact trimLeft_cons_not_ws hc' []
      · rw [if_neg hr]
        exact trimLeft_cons_not_ws hc' (trimRight rest)

theorem jsTrim_eq_comm (l : Str) : jsTrim l = trimLeft (trimRight l) :=
  (trimLeft_trimRight_comm l).symm

theorem jsTrim_ws_append {pre : Str} (h : AllWs pre) (l : Str) :
    jsTrim (pre ++ l) = jsTrim l := by
  unfold jsTrim
  rw [trimLeft_ws_append h]

theorem jsTrim_append_ws {post : Str} (h : AllWs post) (l : Str) :
    jsTrim (l ++ post) = jsTrim l := by
  rw [jsTrim_eq_comm, jsTrim_eq_comm, trimRight_append_ws h]

theorem jsTrim_head_not_ws {l : Str} {c : Char} (h : (jsTrim l).head? = some c) :
    isWsChar c = false := by
  rw [jsTrim_eq_comm] at h
  exact trimLeft_head_not_ws h

theorem jsTrim_last_not_ws {l : Str} {c : Char} (h : (jsTrim l).getLast? = some c) :
    isWsChar c = false := by
  exact trimRight_last_not_ws h

theorem jsTrim_eq_self {l : Str}
    (h1 : ∀ c, l.head? = some c → isWsChar c = false)
    (h2 : ∀ c, l.getLast? = some c → isWsChar c = false) :
    jsTrim l = l := by
  unfold jsTrim
  rw [trimLeft_eq_self h1, trimRight_eq_self h2]

theorem jsTrim_idem (l : Str) : jsTrim (jsTrim l) = jsTrim l :=
  jsTrim_eq_self (fun _ h => jsTrim_head_not_ws h) (fun _ h => jsTrim_last_not_ws h)

-- ── lowerStr lemmas ──────────────────────────────────

theorem lowerStr_trimLeft (l : Str) : lowerStr (trimLeft l) = trimLeft (lowerStr l) := by
  unfold lowerStr trimLeft
  rw [List.dropWhile_map]
  have h : (isWsChar ∘ jsToLower) = isWsChar := funext (fun c => isWsChar_jsToLower c)
  rw [h]

theorem lowerStr_trimRight (l : Str) : lowerStr (trimRight l) = trimRight (lowerStr l) := by
  unfold trimRight
  calc lowerStr (trimLeft l.reverse).reverse
      = (lowerStr (trimLeft l.reverse)).reverse := List.map_reverse _ _
    _ = (trimLeft (lowerStr l.reverse)).reverse := by rw [lowerStr_trimLeft]
    _ = (trimLeft (lowerStr l).reverse).reverse := by
          unfold lowerStr
          rw [List.map_reverse]

theorem lowerStr_jsTrim (l : Str) : lowerStr (jsTrim l) = jsTrim (lowerStr l) := by
  unfold jsTrim
  rw [lowerStr_trimRight, lowerStr_trimLeft]

theorem lowerStr_idem (l : Str) : lowerStr (lowerStr l) = lowerStr l := by
  unfold lowerStr
  rw [List.map_map]
  exact List.map_congr_left (fun c _ => jsToLower_idem c)

theorem lowerStr_append (l1 l2 : Str) : lowerStr (l1 ++ l2) = lowerStr l1 ++ lowerStr l2 :=
  List.map_append jsToLower l1 l2

theorem lowerStr_fix_of_mem {l : Str} (h : ∀ c ∈ l, jsToLower c = c) : lowerStr l = l :=
  (List.map_congr_left h).trans (List.map_id l)

-- ── collapseWs lemmas ────────────────────────────────

theorem collapseAux_cons_ws {c : Char} (h : isWsChar c = true) (b : Bool) (l : Str) :
    collapseAux b (c :: l) =
      (if b then collapseAux true l else ' ' :: collapseAux true l) := by
  cases b <;> simp [collapseAux, h]

theorem collapseAux_cons_not_ws {c : Char} (h : isWsChar c = false) (b : Bool) (l : Str) :
    collapseAux b (c :: l) = c :: collapseAux false l := by
  cases b <;> simp [collapseAux, h]

theorem collapseAux_idem (l : Str) :
    collapseAux false (collapseAux false l) = collapseAux false l ∧
    collapseAux true (collapseAux true l) = collapseAux true l ∧
    collapseAux false (collapseAux true l) = collapseAux true l := by
  induction l with
  | nil => exact ⟨rfl, rfl, rfl⟩
  | cons c r ih =>
    by_cases hc : isWsChar c
    · rw [collapseAux_cons_ws hc, collapseAux_cons_ws hc]
      simp only [if_true, if_false, Bool.false_eq_true, ite_false, ite_true]
      refine ⟨?_, ih.2.1, ih.2.2⟩
      rw [collapseAux_cons_ws (by decide : isWsChar ' ' = true)]
      simp only [Bool.false_eq_true, ite_false]
      rw [ih.2.1]
    · have hc' : isWsChar c = false := by simpa using hc
      refine ⟨?_, ?_, ?_⟩ <;>
        (rw [collapseAux_cons_not_ws hc', collapseAux_cons_not_ws hc', ih.1])

theorem collapseWs_idem (l : Str) : collapseWs (collapseWs l) = collapseWs l :=
  (collapseAux_idem l).1

theorem collapseAux_true_eq_false {l : Str}
    (h : ∀ c, l.head? = some c → isWsChar c = false) :
    collapseAux true l = collapseAux false l := by
  cases l with
  | nil => rfl
  | cons c r =>
    rw [collapseAux_cons_not_ws (h c rfl), collapseAux_cons_not_ws (h c rfl)]

theorem collapseAux_getLast {l : Str} {d : Char}
    (h : l.getLast? = some d) (hd : isWsChar d = false) (b : Bool) :
    (collapseAux b l).getLast? = some d := by
  induction l generalizing b with
  | nil => simp at h
  | cons c r ih =>
    cases r with
    | nil =>
      simp only [List.getLast?_singleton, Option.some.injEq] at h
      subst h
      rw [collapseAux_cons_not_ws hd]
      rfl
    | cons c2 r2 =>
      have h2 : (c2 :: r2).getLast? = some d := by
        rwa [List.getLast?_cons_cons] at h
      have hne : ∀ b2, collapseAux b2 (c2 :: r2) ≠ [] := by
        intro b2 hemp
        have := ih h2 b2
        rw [hemp] at this
        simp at this
      by_cases hc : isWsChar c
      · rw [collapseAux_cons_ws hc]
        cases b with
        | true => simpa using ih h2 true
        | false =>
          simp only [Bool.false_eq_true, ite_false]
          rw [List.getLast?_cons, List.getLast?_eq_head?_reverse]
          have := ih h2 true
          rw [List.getLast?_eq_head?_reverse] at this
          cases hrev : (collapseAux true (c2 :: r2)).reverse with
          | nil => exact absurd (by simpa using congrArg List.length hrev) (by
              intro hlen
              exact hne true (List.eq_nil_of_length_eq_zero (by simpa using hlen)))
          | cons x xs => simp_all
      · have hc' : isWsChar c = false := by simpa using hc
        rw [collapseAux_cons_not_ws hc']
        rw [List.getLast?_cons, List.getLast?_eq_head?_reverse]
        have := ih h2 false
        rw [List.getLast?_eq_head?_reverse] at this
        cases hrev : (collapseAux false (c2 :: r2)).reverse with
        | nil => exact absurd (by simpa using congrArg List.length hrev) (by
            intro hlen
            exact hne false (List.eq_nil_of_length_eq_zero (by simpa using hlen)))
        | cons x xs => simp_all

theorem collapseAux_append {p : Str} (hp : p ≠ [])
    (hlast : ∀ d, p.getLast? = some d → isWsChar d = false) (z : Str) (b : Bool) :
    collapseAux b (p ++ z) = collapseAux b p ++ collapseAux false z := by
  induction p generalizing b with
  | nil => exact absurd rfl hp
  | cons c p2 ih =>
    cases p2 with
    | nil =>
      have hc : isWsChar c = false :=
        hlast c (by rfl)
      rw [List.singleton_append, collapseAux_cons_not_ws hc, collapseAux_cons_not_ws hc]
      rfl
    | cons c2 p3 =>
      have hlast2 : ∀ d, (c2 :: p3).getLast? = some d → isWsChar d = false := by
        intro d hd
        exact hlast d (by rwa [List.getLast?_cons_cons])
      have ih2 := fun b => ih (by simp) hlast2 b
      simp only [List.cons_append] at ih2 ⊢
      by_cases hc : isWsChar c
      · rw [collapseAux_cons_ws hc, collapseAux_cons_ws hc]
        cases b with
        | true => simpa using ih2 true
        | false =>
          simp only [Bool.false_eq_true, ite_false]
          rw [ih2 true]
          simp
      · have hc' : isWsChar c = false := by simpa using hc
        rw [collapseAux_cons_not_ws hc', collapseAux_cons_not_ws hc']
        rw [ih2 false]
        simp

-- ── splitComma / joinCommaSpace lemmas ───────────────

theorem splitComma_ne_nil (l : Str) : splitComma l ≠ [] := by
  cases l with
  | nil => simp [splitComma]
  | cons c rest =>
    by_cases h : c = ','
    · simp [splitComma, h]
    · simp only [splitComma, if_neg h]
      cases splitComma rest <;> simp

theorem splitComma_cons_comma (l : Str) : splitComma (',' :: l) = [] :: splitComma l := by
  simp [splitComma]

theorem splitComma_cons_not_comma {c : Char} (h : ¬ c = ',') (l : Str) :
    ∀ p ps, splitComma l = p :: ps → splitComma (c :: l) = (c :: p) :: ps := by
  intro p ps hl
  simp [splitComma, h, hl]

theorem splitComma_of_not_mem {l : Str} (h : ¬ ',' ∈ l) : splitComma l = [l] := by
  induction l with
  | nil => rfl
  | cons c rest ih =>
    have hc : ¬ c = ',' := fun he => h (by simp [he])
    have hrest : ¬ ',' ∈ rest := fun hm => h (by simp [hm])
    exact splitComma_cons_not_comma hc rest rest [] (ih hrest)

theorem splitComma_append_of_not_mem {p : Str} (h : ¬ ',' ∈ p) (z : Str) :
    splitComma (p ++ ',' :: z) = p :: splitComma z := by
  induction p with
  | nil => exact splitComma_cons_comma z
  | cons c rest ih =>
    have hc : ¬ c = ',' := fun he => h (by simp [he])
    have hrest : ¬ ',' ∈ rest := fun hm => h (by simp [hm])
    rw [List.cons_append]
    exact splitComma_cons_not_comma hc _ _ _ (ih hrest)

theorem mem_of_mem_splitComma {l q : Str} (hq : q ∈ splitComma l) {c : Char} (hc : c ∈ q) :
    c ∈ l := by
  induction l generalizing q with
  | nil =>
    simp only [splitComma, List.mem_singleton] at hq
    subst hq; simp at hc
  | cons d rest ih =>
    by_cases hd : d = ','
    · subst hd
      rw [splitComma_cons_comma] at hq
      rcases List.mem_cons.mp hq with hq | hq
      · subst hq; simp at hc
      · exact List.mem_cons_of_mem _ (ih hq hc)
    · obtain ⟨p, ps, hps⟩ : ∃ p ps, splitComma rest = p :: ps := by
        cases hsp : splitComma rest with
        | nil => exact absurd hsp (splitComma_ne_nil rest)
        | cons p ps => exact ⟨p, ps, rfl⟩
      rw [splitComma_cons_not_comma hd rest p ps hps] at hq
      rcases List.mem_cons.mp hq with hq | hq
      · subst hq
        rcases List.mem_cons.mp hc with hc | hc
        · simp [hc]
        · exact List.mem_cons_of_mem _ (ih (by simp [hps]) hc)
      · refine List.mem_cons_of_mem _ (ih ?_ hc)
        rw [hps]
        exact List.mem_cons_of_mem _ hq

theorem not_comma_mem_splitComma {l q : Str} (hq : q ∈ splitComma l) : ¬ ',' ∈ q := by
  induction l generalizing q with
  | nil =>
    simp only [splitComma, List.mem_singleton] at hq
    subst hq; simp
  | cons d rest ih =>
    by_cases hd : d = ','
    · subst hd
      rw [splitComma_cons_comma] at hq
      rcases List.mem_cons.mp hq with hq | hq
      · subst hq; simp
      · exact ih hq
    · obtain ⟨p, ps, hps⟩ : ∃ p ps, splitComma rest = p :: ps := by
        cases hsp : splitComma rest with
        | nil => exact absurd hsp (splitComma_ne_nil rest)
        | cons p ps => exact ⟨p, ps, rfl⟩
      rw [splitComma_cons_not_comma hd rest p ps hps] at hq
      rcases List.mem_cons.mp hq with hq | hq
      · subst hq
        intro hm
        rcases List.mem_cons.mp hm with hm | hm
        · exact hd hm.symm
        · exact ih (by simp [hps]) hm
      · refine ih ?_
        rw [hps]
        exact List.mem_cons_of_mem _ hq

theorem joinCommaSpace_cons {ps : List Str} (h : ps ≠ []) (p : Str) :
    joinCommaSpace (p :: ps) = p ++ ',' :: ' ' :: joinCommaSpace ps := by
  cases ps with
  | nil => exact absurd rfl h
  | cons q qs => rfl

theorem splitComma_join {p : Str} {ps : List Str}
    (hp : ¬ ',' ∈ p) (hps : ∀ q ∈ ps, ¬ ',' ∈ q) :
    splitComma (joinCommaSpace (p :: ps)) = p :: ps.map (fun q => ' ' :: q) := by
  induction ps generalizing p with
  | nil => simpa [joinCommaSpace] using splitComma_of_not_mem hp
  | cons q qs ih =>
    rw [joinCommaSpace_cons (by simp) p, splitComma_append_of_not_mem hp]
    have hq : ¬ ',' ∈ q := hps q (by simp)
    have hqs : ∀ r ∈ qs, ¬ ',' ∈ r := fun r hr => hps r (by simp [hr])
    have hrec := ih hq hqs
    cases hjoin : splitComma (joinCommaSpace (q :: qs)) with
    | nil => exact absurd hjoin (splitComma_ne_nil _)
    | cons j js =>
      rw [hjoin] at hrec
      have hj : j = q := (List.cons.injEq _ _ _ _ ▸ hrec).1
      have hjs : js = qs.map (fun r => ' ' :: r) := (List.cons.injEq _ _ _ _ ▸ hrec).2
      rw [splitComma_cons_not_comma (by decide) _ j js hjoin, hj, hjs]
      simp

theorem splitComma_concat_comma (z : Str) : splitComma (z ++ [',']) = splitComma z ++ [[]] := by
  induction z with
  | nil => rfl
  | cons c rest ih =>
    by_cases hc : c = ','
    · subst hc
      rw [List.cons_append, splitComma_cons_comma, splitComma_cons_comma, ih]
      rfl
    · obtain ⟨p, ps, hps⟩ : ∃ p ps, splitComma rest = p :: ps := by
        cases hsp : splitComma rest with
        | nil => exact absurd hsp (splitComma_ne_nil rest)
        | cons p ps => exact ⟨p, ps, rfl⟩
      rw [List.cons_append,
        splitComma_cons_not_comma hc _ _ _ (by rw [ih, hps]; rfl),
        splitComma_cons_not_comma hc _ _ _ hps]
      rfl

-- ── dropTrailingPunct lemmas ─────────────────────────

theorem dropWhile_eq_self_of_head {p : Char → Bool} {l : Str}
    (h : ∀ c, l.head? = some c → p c = false) : l.dropWhile p = l := by
  cases l with
  | nil => rfl
  | cons c rest => simp [List.dropWhile_cons, h c rfl]

theorem dropTrailingPunct_eq_self {l : Str}
    (h : ∀ c, l.getLast? = some c → isPunctChar c = false) : dropTrailingPunct l = l := by
  unfold dropTrailingPunct
  rw [dropWhile_eq_self_of_head, List.reverse_reverse]
  intro c hc
  rw [List.head?_reverse] at hc
  exact h c hc

theorem dropWhile_head_not {p : Char → Bool} {l : Str} {c : Char}
    (h : (l.dropWhile p).head? = some c) : p c = false := by
  induction l with
  | nil => simp at h
  | cons d rest ih =>
    by_cases hd : p d
    · rw [List.dropWhile_cons, if_pos hd] at h
      exact ih h
    · rw [List.dropWhile_cons, if_neg hd] at h
      simp only [List.head?_cons, Option.some.injEq] at h
      subst h; simpa using hd

theorem dropTrailingPunct_last_not_punct {l : Str} {c : Char}
    (h : (dropTrailingPunct l).getLast? = some c) : isPunctChar c = false := by
  unfold dropTrailingPunct at h
  rw [List.getLast?_reverse] at h
  exact dropWhile_head_not h

-- ── Membership through the pipeline ──────────────────

theorem mem_trimLeft {c : Char} {l : Str} (h : c ∈ trimLeft l) : c ∈ l :=
  (List.dropWhile_sublist _).mem h

theorem mem_trimRight {c : Char} {l : Str} (h : c ∈ trimRight l) : c ∈ l := by
  unfold trimRight at h
  rw [List.mem_reverse] at h
  have := mem_trimLeft h
  rwa [List.mem_reverse] at this

theorem mem_jsTrim {c : Char} {l : Str} (h : c ∈ jsTrim l) : c ∈ l :=
  mem_trimLeft (mem_trimRight h)

theorem mem_dropEnds {c : Char} {l : Str} (h : c ∈ dropEnds l) : c ∈ l := by
  unfold dropEnds at h
  exact (List.drop_sublist 1 l).mem ((List.dropLast_sublist _).mem h)

theorem mem_dropTrailingPunct {c : Char} {l : Str} (h : c ∈ dropTrailingPunct l) : c ∈ l := by
  unfold dropTrailingPunct at h
  rw [List.mem_reverse] at h
  have := (List.dropWhile_sublist _).mem h
  rwa [List.mem_reverse] at this

theorem mem_stageQuote {c : Char} {l : Str} (h : c ∈ stageQuote l) : c ∈ l := by
  unfold stageQuote at h
  split at h
  · exact mem_dropEnds (mem_jsTrim h)
  · exact h

theorem mem_stagePunct {c : Char} {l : Str} (h : c ∈ stagePunct l) : c ∈ l :=
  mem_dropTrailingPunct (mem_jsTrim h)

theorem mem_joinCommaSpace {c : Char} {ps : List Str} (h : c ∈ joinCommaSpace ps) :
    (∃ q ∈ ps, c ∈ q) ∨ c = ',' ∨ c = ' ' := by
  induction ps with
  | nil => simp [joinCommaSpace] at h
  | cons p ps ih =>
    cases ps with
    | nil =>
      simp only [joinCommaSpace] at h
      exact Or.inl ⟨p, by simp, h⟩
    | cons q qs =>
      rw [joinCommaSpace_cons (by simp)] at h
      rcases List.mem_append.mp h with h | h
      · exact Or.inl ⟨p, by simp, h⟩
      · rcases List.mem_cons.mp h with h | h
        · exact Or.inr (Or.inl h)
        · rcases List.mem_cons.mp h with h | h
          · exact Or.inr (Or.inr h)
          · rcases ih h with ⟨r, hr, hcr⟩ | h
            · exact Or.inl ⟨r, List.mem_cons_of_mem _ hr, hcr⟩
            · exact Or.inr h

theorem mem_stageComma {c : Char} {l : Str} (h : c ∈ stageComma l) :
    c ∈ l ∨ c = ',' ∨ c = ' ' := by
  unfold stageComma at h
  split at h
  · rcases mem_joinCommaSpace h with ⟨q, hq, hcq⟩ | h
    · obtain ⟨q0, hq0, rfl⟩ := List.mem_map.mp hq
      exact Or.inl (mem_of_mem_splitComma hq0 (mem_jsTrim hcq))
    · exact Or.inr h
  · exact Or.inl h

theorem mem_collapseAux {c : Char} {l : Str} {b : Bool} (h : c ∈ collapseAux b l) :
    c ∈ l ∨ c = ' ' := by
  induction l generalizing b with
  | nil => simp [collapseAux] at h
  | cons d rest ih =>
    by_cases hd : isWsChar d
    · rw [collapseAux_cons_ws hd] at h
      cases b with
      | true =>
        simp only [if_true] at h
        rcases ih h with h | h
        · exact Or.inl (List.mem_cons_of_mem _ h)
        · exact Or.inr h
      | false =>
        simp only [Bool.false_eq_true, ite_false] at h
        rcases List.mem_cons.mp h with h | h
        · exact Or.inr h
        · rcases ih h with h | h
          · exact Or.inl (List.mem_cons_of_mem _ h)
          · exact Or.inr h
    · rw [collapseAux_cons_not_ws (by simpa using hd)] at h
      rcases List.mem_cons.mp h with h | h
      · exact Or.inl (by simp [h])
      · rcases ih h with h | h
        · exact Or.inl (List.mem_cons_of_mem _ h)
        · exact Or.inr h

theorem mem_normalizeAnswer {c : Char} {l : Str} (h : c ∈ normalizeAnswer l) :
    c ∈ lowerStr l ∨ c = ',' ∨ c = ' ' := by
  unfold normalizeAnswer at h
  rcases mem_collapseAux h with h | h
  · rcases mem_stageComma h with h | h
    · refine Or.inl (mem_jsTrim (l := lowerStr l) ?_)
      have := mem_stageQuote (mem_stagePunct h)
      rwa [lowerStr_jsTrim] at this
    · exact Or.inr h
  · exact Or.inr (Or.inr h)

/-- Every character of a normalized answer is fixed by `jsToLower`. -/
theorem lower_fix_of_mem_normalizeAnswer {c : Char} {l : Str}
    (h : c ∈ normalizeAnswer l) : jsToLower c = c := by
  rcases mem_normalizeAnswer h with h | h | h
  · obtain ⟨d, _, rfl⟩ := List.mem_map.mp h
    exact jsToLower_idem d
  · subst h; decide
  · subst h; decide

theorem lowerStr_normalizeAnswer (l : Str) :
    lowerStr (normalizeAnswer l) = normalizeAnswer l :=
  lowerStr_fix_of_mem (fun _ hc => lower_fix_of_mem_normalizeAnswer hc)

-- ── Character counts through the pipeline ────────────

/-- The tail of the normalization pipeline after the quote-stripping stage. -/
def normTail (u : Str) : Str := collapseWs (stageComma (stagePunct u))

theorem normalizeAnswer_eq_normTail (l : Str) :
    normalizeAnswer l = normTail (stageQuote (lowerStr (jsTrim l))) := rfl

theorem count_dropWhile {p : Char → Bool} {c : Char} (hc : p c = false) (l : Str) :
    (l.dropWhile p).count c = l.count c := by
  conv_rhs => rw [← List.takeWhile_append_dropWhile p l]
  rw [List.count_append]
  have h0 : (l.takeWhile p).count c = 0 := List.count_eq_zero.mpr (fun hm => by
    have := List.mem_takeWhile_imp hm
    simp_all)
  omega

theorem count_trimLeft {c : Char} (hc : isWsChar c = false) (l : Str) :
    (trimLeft l).count c = l.count c := count_dropWhile hc l

theorem count_trimRight {c : Char} (hc : isWsChar c = false) (l : Str) :
    (trimRight l).count c = l.count c := by
  unfold trimRight
  rw [List.count_reverse, count_trimLeft hc, List.count_reverse]

theorem count_jsTrim {c : Char} (hc : isWsChar c = false) (l : Str) :
    (jsTrim l).count c = l.count c := by
  unfold jsTrim
  rw [count_trimRight hc, count_trimLeft hc]

theorem count_dropTrailingPunct {c : Char} (hc : isPunctChar c = false) (l : Str) :
    (dropTrailingPunct l).count c = l.count c := by
  unfold dropTrailingPunct
  rw [List.count_reverse, count_dropWhile hc, List.count_reverse]

theorem count_stagePunct {c : Char} (hw : isWsChar c = false) (hp : isPunctChar c = false)
    (l : Str) : (stagePunct l).count c = l.count c := by
  unfold stagePunct
  rw [count_jsTrim hw, count_dropTrailingPunct hp]

theorem count_collapseAux {c : Char} (hw : isWsChar c = false) (l : Str) (b : Bool) :
    (collapseAux b l).count c = l.count c := by
  have hcs : ¬ (c = ' ') := fun he => by rw [he] at hw; simp [isWsChar] at hw
  induction l generalizing b with
  | nil => rfl
  | cons d rest ih =>
    by_cases hd : isWsChar d
    · have hcd : ¬ (c = d) := fun he => by rw [he] at hw; rw [hw] at hd; simp at hd
      rw [collapseAux_cons_ws hd]
      cases b with
      | true =>
        simp only [if_true]
        rw [ih, List.count_cons]
        simp [Ne.symm hcd]
      | false =>
        simp only [Bool.false_eq_true, ite_false]
        rw [List.count_cons, ih, List.count_cons]
        simp [Ne.symm hcd, Ne.symm hcs]
    · rw [collapseAux_cons_not_ws (by simpa using hd), List.count_cons, ih, List.count_cons]

theorem count_collapseWs {c : Char} (hw : isWsChar c = false) (l : Str) :
    (collapseWs l).count c = l.count c := count_collapseAux hw l false

theorem count_lowerStr_low {c : Char}
    (h1 : ¬(65 ≤ c.toNat ∧ c.toNat ≤ 90)) (h2 : ¬(97 ≤ c.toNat ∧ c.toNat ≤ 122)) (l : Str) :
    (lowerStr l).count c = l.count c := by
  induction l with
  | nil => rfl
  | cons d rest ih =>
    show (jsToLower d :: lowerStr rest).count c = (d :: rest).count c
    rw [List.count_cons, List.count_cons, ih]
    congr 1
    by_cases hd : 65 ≤ d.toNat ∧ d.toNat ≤ 90
    · have he1 : ¬ (jsToLower d = c) := fun he => by
        rw [char_eq_iff, jsToLower_of_upper hd] at he
        omega
      have he2 : ¬ (d = c) := fun he => by
        rw [char_eq_iff] at he
        omega
      simp [he1, he2]
    · rw [jsToLower_of_not_upper hd]

theorem count_splitComma_sum {c : Char} (hc : ¬ c = ',') (l : Str) :
    ((splitComma l).map (fun q => q.count c)).sum = l.count c := by
  induction l with
  | nil => simp [splitComma]
  | cons d rest ih =>
    by_cases hd : d = ','
    · subst hd
      rw [splitComma_cons_comma]
      simp only [List.map_cons, List.sum_cons, List.count_nil, List.count_cons, ih]
      have h2 : ¬ (',' = c) := fun he => hc he.symm
      simp [h2]
    · obtain ⟨p, ps, hps⟩ : ∃ p ps, splitComma rest = p :: ps := by
        cases hsp : splitComma rest with
        | nil => exact absurd hsp (splitComma_ne_nil rest)
        | cons p ps => exact ⟨p, ps, rfl⟩
      rw [splitComma_cons_not_comma hd rest p ps hps]
      rw [hps] at ih
      simp only [List.map_cons, List.sum_cons, List.count_cons] at ih ⊢
      omega

theorem count_joinCommaSpace {c : Char} (hc : ¬ c = ',') (hs : ¬ c = ' ')
    (ps : List Str) : (joinCommaSpace ps).count c = (ps.map (fun q => q.count c)).sum := by
  induction ps with
  | nil => rfl
  | cons p qs ih =>
    cases qs with
    | nil => simp [joinCommaSpace]
    | cons q qs2 =>
      rw [joinCommaSpace_cons (by simp)]
      rw [List.count_append, List.count_cons, List.count_cons, ih]
      simp [Ne.symm hc, Ne.symm hs]

theorem count_stageComma {c : Char} (hw : isWsChar c = false) (hc : ¬ c = ',') (l : Str) :
    (stageComma l).count c = l.count c := by
  have hcs : ¬ (c = ' ') := fun he => by rw [he] at hw; simp [isWsChar] at hw
  unfold stageComma
  split
  · rw [count_joinCommaSpace hc hcs, List.map_map]
    have : ((splitComma l).map ((fun q => q.count c) ∘ jsTrim)).sum =
        ((splitComma l).map (fun q => q.count c)).sum := by
      congr 1
      exact List.map_congr_left (fun q _ => count_jsTrim hw q)
    rw [this, count_splitComma_sum hc]
  · rfl

theorem count_normTail {c : Char} (hw : isWsChar c = false) (hp : isPunctChar c = false)
    (hc : ¬ c = ',') (u : Str) : (normTail u).count c = u.count c := by
  unfold normTail
  rw [count_collapseWs hw, count_stageComma hw hc, count_stagePunct hw hp]

-- ── quoteCond structure ──────────────────────────────

theorem quoteCond_iff {l : Str} :
    quoteCond l = true ↔ ∃ a mid, isQuoteChar a = true ∧ l = a :: mid ++ [a] := by
  constructor
  · intro h
    cases l with
    | nil => simp [quoteCond] at h
    | cons a t =>
      cases t with
      | nil => simp [quoteCond] at h
      | cons d t2 =>
        have hlast : (a :: d :: t2).getLast? = some ((d :: t2).getLast (by simp)) := by
          rw [List.getLast?_cons_cons]
          exact List.getLast?_eq_getLast _ (by simp)
        unfold quoteCond at h
        rw [List.head?_cons, hlast] at h
        simp only [Bool.and_eq_true, decide_eq_true_eq, beq_iff_eq] at h
        obtain ⟨-, ha, hq⟩ := h
        refine ⟨a, (d :: t2).dropLast, hq, ?_⟩
        have hsplit : (d :: t2).dropLast ++ [(d :: t2).getLast (by simp)] = d :: t2 :=
          List.dropLast_append_getLast (by simp)
        rw [← ha] at hsplit
        exact (congrArg (fun z => a :: z) hsplit).symm
  · rintro ⟨a, mid, hq, rfl⟩
    unfold quoteCond
    have hhead : (a :: mid ++ [a]).head? = some a := rfl
    have hlast : (a :: mid ++ [a]).getLast? = some a := by
      rw [show a :: mid ++ [a] = (a :: mid) ++ [a] by simp, List.getLast?_concat]
    rw [hhead, hlast]
    simp [hq]

theorem isQuoteChar_props {a : Char} (h : isQuoteChar a = true) :
    isWsChar a = false ∧ isPunctChar a = false ∧ ¬ a = ',' ∧
    ¬(65 ≤ a.toNat ∧ a.toNat ≤ 90) ∧ ¬(97 ≤ a.toNat ∧ a.toNat ≤ 122) := by
  simp only [isQuoteChar, Bool.or_eq_true, decide_eq_true_eq] at h
  refine ⟨?_, ?_, ?_, by omega, by omega⟩
  · rw [Bool.eq_false_iff]
    intro hw
    rw [isWsChar_iff] at hw
    omega
  · rw [Bool.eq_false_iff]
    intro hp
    simp only [isPunctChar, Bool.or_eq_true, decide_eq_true_eq] at hp
    omega
  · intro he
    rw [char_eq_iff] at he
    have : (',' : Char).toNat = 44 := by decide
    omega

/-- If the quote-stripping branch fires, normalization strictly decreases the
count of the wrapping quote character, so the result differs from the input. -/
theorem normalizeAnswer_ne_of_quoteCond {x : Str}
    (h : quoteCond (lowerStr (jsTrim x)) = true) : normalizeAnswer x ≠ x := by
  obtain ⟨a, mid, hq, hw⟩ := quoteCond_iff.mp h
  obtain ⟨hws, hp, hcm, h1, h2⟩ := isQuoteChar_props hq
  have hde : dropEnds (lowerStr (jsTrim x)) = mid := by
    rw [hw]
    show ((a :: (mid ++ [a])).drop 1).dropLast = mid
    rw [List.drop_succ_cons, List.drop_zero, List.dropLast_concat]
  have hcx : (lowerStr (jsTrim x)).count a = x.count a := by
    rw [count_lowerStr_low h1 h2, count_jsTrim hws]
  have hcw : (lowerStr (jsTrim x)).count a = mid.count a + 2 := by
    rw [hw]
    rw [show a :: mid ++ [a] = a :: (mid ++ [a]) from rfl]
    rw [List.count_cons, List.count_append]
    simp
  have hcn : (normalizeAnswer x).count a = mid.count a := by
    rw [normalizeAnswer_eq_normTail]
    unfold stageQuote
    rw [if_pos h, hde, count_normTail hws hp hcm, count_jsTrim hws]
  intro he
  rw [he] at hcn
  omega

-- ── Structural lemmas for re-normalization ───────────

theorem head_not_ws_of_jsTrim_self {u : Str} (h : jsTrim u = u) :
    ∀ c, u.head? = some c → isWsChar c = false := fun c hc =>
  jsTrim_head_not_ws (l := u) (by rw [h]; exact hc)

theorem last_not_ws_of_jsTrim_self {u : Str} (h : jsTrim u = u) :
    ∀ c, u.getLast? = some c → isWsChar c = false := fun c hc =>
  jsTrim_last_not_ws (l := u) (by rw [h]; exact hc)

theorem jsTrim_cons_space {q : Str} (h : jsTrim q = q) : jsTrim (' ' :: q) = q := by
  rw [show (' ' :: q) = [' '] ++ q from rfl,
    jsTrim_ws_append (fun c hc => by simp_all; subst hc; decide), h]

/-- Collapsing preserves trimmedness. -/
theorem jsTrim_collapseWs {p : Str} (h : jsTrim p = p) :
    jsTrim (collapseWs p) = collapseWs p := by
  cases p with
  | nil => rfl
  | cons c rest =>
    have hc : isWsChar c = false := head_not_ws_of_jsTrim_self h c rfl
    apply jsTrim_eq_self
    · intro d hd
      unfold collapseWs at hd
      rw [collapseAux_cons_not_ws hc] at hd
      simp only [List.head?_cons, Option.some.injEq] at hd
      subst hd; exact hc
    · intro d hd
      have he : (c :: rest).getLast? = some ((c :: rest).getLast (by simp)) :=
        List.getLast?_eq_getLast _ (by simp)
      have hew : isWsChar ((c :: rest).getLast (by simp)) = false :=
        last_not_ws_of_jsTrim_self h _ he
      have hgl := collapseAux_getLast he hew false
      unfold collapseWs at hd
      rw [hd] at hgl
      obtain rfl : d = (c :: rest).getLast (by simp) := by simpa using hgl
      exact hew

/-- The join of trimmed parts never starts with whitespace. -/
theorem joinCommaSpace_head_not_ws {qs : List Str} (h : ∀ q ∈ qs, jsTrim q = q) :
    ∀ c, (joinCommaSpace qs).head? = some c → isWsChar c = false := by
  intro c hc
  cases qs with
  | nil => simp [joinCommaSpace] at hc
  | cons q qs2 =>
    cases hq : q with
    | nil =>
      subst hq
      cases qs2 with
      | nil => simp [joinCommaSpace] at hc
      | cons r rs =>
        rw [joinCommaSpace_cons (by simp), List.nil_append] at hc
        simp only [List.head?_cons, Option.some.injEq] at hc
        subst hc; decide
    | cons d rest =>
      have hqt : jsTrim q = q := h q (by simp)
      have hd : isWsChar d = false :=
        head_not_ws_of_jsTrim_self hqt d (by rw [hq]; rfl)
      subst hq
      cases qs2 with
      | nil =>
        simp only [joinCommaSpace] at hc
        simp only [List.head?_cons, Option.some.injEq] at hc
        subst hc; exact hd
      | cons r rs =>
        rw [joinCommaSpace_cons (by simp)] at hc
        simp only [List.cons_append, List.head?_cons, Option.some.injEq] at hc
        subst hc; exact hd

/-- `collapseWs` distributes over `joinCommaSpace` of trimmed parts. -/
theorem collapseWs_joinCommaSpace {ps : List Str} (h : ∀ p ∈ ps, jsTrim p = p) :
    collapseWs (joinCommaSpace ps) = joinCommaSpace (ps.map collapseWs) := by
  induction ps with
  | nil => rfl
  | cons p qs ih =>
    cases qs with
    | nil => simp [joinCommaSpace]
    | cons q qs2 =>
      rw [joinCommaSpace_cons (by simp) p, List.map_cons,
        joinCommaSpace_cons (by simp) (collapseWs p)]
      have hp : jsTrim p = p := h p (by simp)
      have hrest : ∀ r ∈ q :: qs2, jsTrim r = r := fun r hr => h r (by simp [hr])
      have hihtail := ih hrest
      have hhead := joinCommaSpace_head_not_ws hrest
      by_cases hpe : p = []
      · subst hpe
        simp only [List.nil_append]
        show collapseAux false (',' :: ' ' :: joinCommaSpace (q :: qs2)) = _
        rw [collapseAux_cons_not_ws (by decide),
          collapseAux_cons_ws (by decide)]
        simp only [Bool.false_eq_true, ite_false]
        rw [collapseAux_true_eq_false hhead]
        show _ = collapseWs [] ++ ',' :: ' ' :: joinCommaSpace ((q :: qs2).map collapseWs)
        rw [← hihtail]
        rfl
      · have hlastp : ∀ d, p.getLast? = some d → isWsChar d = false :=
          last_not_ws_of_jsTrim_self hp
        show collapseAux false (p ++ ',' :: ' ' :: joinCommaSpace (q :: qs2)) = _
        rw [collapseAux_append hpe hlastp]
        rw [collapseAux_cons_not_ws (by decide), collapseAux_cons_ws (by decide)]
        simp only [Bool.false_eq_true, ite_false]
        rw [collapseAux_true_eq_false hhead, ← hihtail]
        rfl

theorem getLast?_cons_ne {a : Char} {l : Str} (h : l ≠ []) :
    (a :: l).getLast? = l.getLast? := by
  cases l with
  | nil => exact absurd rfl h
  | cons b t => exact List.getLast?_cons_cons

theorem head?_append_cases (l1 l2 : Str) :
    (l1 ++ l2).head? = if l1 = [] then l2.head? else l1.head? := by
  cases l1 with
  | nil => simp
  | cons c t => simp

theorem joinCommaSpace_concat {qs : List Str} (h : qs ≠ []) (q : Str) :
    joinCommaSpace (qs ++ [q]) = joinCommaSpace qs ++ ',' :: ' ' :: q := by
  induction qs with
  | nil => exact absurd rfl h
  | cons p rest ih =>
    cases rest with
    | nil => rfl
    | cons r rs =>
      rw [List.cons_append, joinCommaSpace_cons (by simp) p,
        joinCommaSpace_cons (by simp) p, ih (by simp)]
      simp

theorem splitComma_length_ge_two {l : Str} (h : ',' ∈ l) : 2 ≤ (splitComma l).length := by
  induction l with
  | nil => simp at h
  | cons c rest ih =>
    by_cases hc : c = ','
    · subst hc
      rw [splitComma_cons_comma]
      have := splitComma_ne_nil rest
      have : 1 ≤ (splitComma rest).length := by
        cases hs : splitComma rest with
        | nil => exact absurd hs (splitComma_ne_nil rest)
        | cons a b => simp
      simp only [List.length_cons]
      omega
    · have hrest : ',' ∈ rest := by
        rcases List.mem_cons.mp h with h | h
        · exact absurd h.symm hc
        · exact h
      obtain ⟨p, ps, hps⟩ : ∃ p ps, splitComma rest = p :: ps := by
        cases hsp : splitComma rest with
        | nil => exact absurd hsp (splitComma_ne_nil rest)
        | cons p ps => exact ⟨p, ps, rfl⟩
      rw [splitComma_cons_not_comma hc rest p ps hps]
      have := ih hrest
      rw [hps] at this
      simpa using this

theorem comma_mem_joinCommaSpace {qs : List Str} (h : 2 ≤ qs.length) :
    ',' ∈ joinCommaSpace qs := by
  cases qs with
  | nil => simp at h
  | cons q qs2 =>
    cases qs2 with
    | nil => simp at h
    | cons r rs =>
      rw [joinCommaSpace_cons (by simp)]
      simp

theorem quoteCond_false_of_last {l : Str} {c : Char}
    (hl : l.getLast? = some c) (hc : isQuoteChar c = false) : quoteCond l = false := by
  rw [Bool.eq_false_iff]
  intro h
  obtain ⟨a, mid, hq, rfl⟩ := quoteCond_iff.mp h
  have hlast : (a :: mid ++ [a]).getLast? = some a := by
    rw [show a :: mid ++ [a] = (a :: mid) ++ [a] by simp, List.getLast?_concat]
  rw [hlast] at hl
  obtain rfl : a = c := by simpa using hl
  rw [hq] at hc
  exact Bool.true_eq_false.mp hc

theorem stagePunct_eq_self {t : Str} (ht : jsTrim t = t)
    (hp : ∀ c, t.getLast? = some c → isPunctChar c = false) : stagePunct t = t := by
  unfold stagePunct
  rw [dropTrailingPunct_eq_self hp, ht]

theorem stageQuote_eq_self {t : Str} (hq : quoteCond t = false) : stageQuote t = t := by
  unfold stageQuote
  rw [hq]
  simp

/-- Re-normalizing the output of the comma/collapse tail of the pipeline is the
identity, provided the output is not quote-wrapped and has no trailing
punctuation.  `u` is the (trimmed) input of the comma stage. -/
theorem renorm_key {u : Str} (hu : jsTrim u = u)
    (hlow : lowerStr (collapseWs (stageComma u)) = collapseWs (stageComma u))
    (hqc : quoteCond (collapseWs (stageComma u)) = false)
    (hpc : ∀ c, (collapseWs (stageComma u)).getLast? = some c → isPunctChar c = false) :
    normalizeAnswer (collapseWs (stageComma u)) = collapseWs (stageComma u) := by
  by_cases hcm : ',' ∈ u
  · -- the comma-canonicalization branch was taken
    have hsc : stageComma u = joinCommaSpace ((splitComma u).map jsTrim) := by
      unfold stageComma
      rw [if_pos (List.elem_iff.mpr hcm)]
    have hps_trim : ∀ p ∈ (splitComma u).map jsTrim, jsTrim p = p := by
      rintro p hp
      obtain ⟨p0, -, rfl⟩ := List.mem_map.mp hp
      exact jsTrim_idem p0
    have hps_nc : ∀ p ∈ (splitComma u).map jsTrim, ¬ ',' ∈ p := by
      rintro p hp hmem
      obtain ⟨p0, hp0, rfl⟩ := List.mem_map.mp hp
      exact not_comma_mem_splitComma hp0 (mem_jsTrim hmem)
    have hdist : collapseWs (stageComma u) =
        joinCommaSpace (((splitComma u).map jsTrim).map collapseWs) := by
      rw [hsc, collapseWs_joinCommaSpace hps_trim]
    set qs := ((splitComma u).map jsTrim).map collapseWs with hqs_def
    have hqs_trim : ∀ q ∈ qs, jsTrim q = q := by
      rintro q hq
      obtain ⟨p, hp, rfl⟩ := List.mem_map.mp hq
      exact jsTrim_collapseWs (hps_trim p hp)
    have hqs_nc : ∀ q ∈ qs, ¬ ',' ∈ q := by
      rintro q hq hmem
      obtain ⟨p, hp, rfl⟩ := List.mem_map.mp hq
      rcases mem_collapseAux hmem with h | h
      · exact hps_nc p hp h
      · simp at h
    have hqs_cols : ∀ q ∈ qs, collapseWs q = q := by
      rintro q hq
      obtain ⟨p, -, rfl⟩ := List.mem_map.mp hq
      exact collapseWs_idem p
    have hlen : 2 ≤ qs.length := by
      rw [hqs_def, List.length_map, List.length_map]
      exact splitComma_length_ge_two hcm
    have hjoin_cols : collapseWs (joinCommaSpace qs) = joinCommaSpace qs := by
      rw [collapseWs_joinCommaSpace hqs_trim]
      congr 1
      exact (List.map_congr_left hqs_cols).trans (List.map_id qs)
    have hresplit : joinCommaSpace ((splitComma (joinCommaSpace qs)).map jsTrim) =
        joinCommaSpace qs := by
      obtain ⟨q0, qtail, hq0⟩ : ∃ q0 qtail, qs = q0 :: qtail := by
        cases hq : qs with
        | nil => rw [hq] at hlen; simp at hlen
        | cons a b => exact ⟨a, b, rfl⟩
      rw [hq0, splitComma_join (hqs_nc q0 (by rw [hq0]; simp))
        (fun q hq => hqs_nc q (by rw [hq0]; simp [hq]))]
      rw [List.map_cons, hqs_trim q0 (by rw [hq0]; simp), List.map_map]
      congr 1
      have : ∀ q ∈ qtail, (jsTrim ∘ fun r => ' ' :: r) q = id q := by
        intro q hq
        exact jsTrim_cons_space (hqs_trim q (by rw [hq0]; simp [hq]))
      rw [List.map_congr_left this, List.map_id]
    rcases List.eq_nil_or_concat qs with hnil | ⟨qs0, qlast, hcc⟩
    · rw [hnil] at hlen; simp at hlen
    rw [List.concat_eq_append] at hcc
    have hqs0_ne : qs0 ≠ [] := by
      intro h
      rw [h] at hcc
      rw [hcc] at hlen
      simp at hlen
    have hqs0_trim : ∀ q ∈ qs0, jsTrim q = q := fun q hq =>
      hqs_trim q (by rw [hcc]; exact List.mem_append_left _ hq)
    have hlow2 : lowerStr (joinCommaSpace qs) = joinCommaSpace qs := by
      rw [← hdist]; exact hlow
    have hqc2 : quoteCond (joinCommaSpace qs) = false := by
      rw [← hdist]; exact hqc
    have hpc2 : ∀ c, (joinCommaSpace qs).getLast? = some c → isPunctChar c = false := by
      rw [← hdist]; exact hpc
    rw [hdist]
    by_cases hql : qlast = []
    · -- the join ends with ", " (last part empty)
      subst hql
      have hysplit : joinCommaSpace qs = (joinCommaSpace qs0 ++ [',']) ++ [' '] := by
        rw [hcc, joinCommaSpace_concat hqs0_ne]
        simp
      have htlast : (joinCommaSpace qs0 ++ [',']).getLast? = some ',' :=
        List.getLast?_concat _
      have hthead : ∀ c, (joinCommaSpace qs0 ++ [',']).head? = some c →
          isWsChar c = false := by
        intro c hc
        rw [head?_append_cases] at hc
        split at hc
        · simp only [List.head?_cons, Option.some.injEq] at hc
          subst hc; decide
        · exact joinCommaSpace_head_not_ws hqs0_trim c hc
      have htt : jsTrim (joinCommaSpace qs0 ++ [',']) = joinCommaSpace qs0 ++ [','] := by
        apply jsTrim_eq_self hthead
        intro c hc
        rw [htlast] at hc
        obtain rfl : ',' = c := by simpa using hc
        decide
      have hstep1 : jsTrim (joinCommaSpace qs) = joinCommaSpace qs0 ++ [','] := by
        rw [hysplit, jsTrim_append_ws (by intro c hc; simp at hc; subst hc; decide), htt]
      have hstep2 : lowerStr (jsTrim (joinCommaSpace qs)) = joinCommaSpace qs0 ++ [','] := by
        rw [lowerStr_jsTrim, hlow2, hstep1]
      rw [normalizeAnswer_eq_normTail, hstep2]
      unfold normTail
      rw [stageQuote_eq_self (quoteCond_false_of_last htlast (by decide))]
      rw [stagePunct_eq_self htt (fun c hc => by
        rw [htlast] at hc
        obtain rfl : ',' = c := by simpa using hc
        decide)]
      have hmem_t : ',' ∈ joinCommaSpace qs0 ++ [','] := List.mem_append_right _ (by simp)
      have hscT : stageComma (joinCommaSpace qs0 ++ [',']) =
          joinCommaSpace ((splitComma (joinCommaSpace qs0 ++ [','])).map jsTrim) := by
        unfold stageComma
        rw [if_pos (List.elem_iff.mpr hmem_t)]
      rw [hscT, splitComma_concat_comma]
      obtain ⟨p0, ptail, hp0⟩ : ∃ p0 ptail, qs0 = p0 :: ptail := by
        cases hq : qs0 with
        | nil => exact absurd hq hqs0_ne
        | cons a b => exact ⟨a, b, rfl⟩
      have hqs0_nc : ∀ q ∈ qs0, ¬ ',' ∈ q := fun q hq =>
        hqs_nc q (by rw [hcc]; exact List.mem_append_left _ hq)
      rw [hp0, splitComma_join (hqs0_nc p0 (by rw [hp0]; simp))
        (fun q hq => hqs0_nc q (by rw [hp0]; simp [hq]))]
      rw [List.map_append, List.map_cons, List.map_map]
      rw [hqs0_trim p0 (by rw [hp0]; simp)]
      have hmapid : List.map (jsTrim ∘ fun r => ' ' :: r) ptail = ptail := by
        have : ∀ q ∈ ptail, (jsTrim ∘ fun r => ' ' :: r) q = id q := by
          intro q hq
          exact jsTrim_cons_space (hqs0_trim q (by rw [hp0]; simp [hq]))
        rw [List.map_congr_left this, List.map_id]
      rw [hmapid]
      show collapseWs (joinCommaSpace ((p0 :: ptail) ++ [jsTrim []])) = _
      rw [show jsTrim ([] : Str) = [] from rfl, ← hp0, ← hcc]
      exact hjoin_cols
    · -- the last part is nonempty, so the join is trimmed
      have hylast : ∀ c, (joinCommaSpace qs).getLast? = some c → isWsChar c = false := by
        intro c hc
        rw [hcc, joinCommaSpace_concat hqs0_ne] at hc
        rw [List.getLast?_append_of_ne_nil _ (by simp)] at hc
        rw [getLast?_cons_ne (by simp)] at hc
        rw [getLast?_cons_ne hql] at hc
        exact last_not_ws_of_jsTrim_self
          (hqs_trim qlast (by rw [hcc]; exact List.mem_append_right _ (by simp))) c hc
      have hyt : jsTrim (joinCommaSpace qs) = joinCommaSpace qs :=
        jsTrim_eq_self (joinCommaSpace_head_not_ws hqs_trim) hylast
      have hstep2 : lowerStr (jsTrim (joinCommaSpace qs)) = joinCommaSpace qs := by
        rw [lowerStr_jsTrim, hlow2, hyt]
      rw [normalizeAnswer_eq_normTail, hstep2]
      unfold normTail
      rw [stageQuote_eq_self hqc2, stagePunct_eq_self hyt hpc2]
      have hmem_y : ',' ∈ joinCommaSpace qs := comma_mem_joinCommaSpace hlen
      have hscY : stageComma (joinCommaSpace qs) =
          joinCommaSpace ((splitComma (joinCommaSpace qs)).map jsTrim) := by
        unfold stageComma
        rw [if_pos (List.elem_iff.mpr hmem_y)]
      rw [hscY, hresplit]
      exact hjoin_cols
  · -- no comma: the comma stage is the identity
    have hsc : stageComma u = u := by
      unfold stageComma
      rw [if_neg (fun h => hcm (List.elem_iff.mp h))]
    rw [hsc] at hlow hqc hpc ⊢
    have hyt : jsTrim (collapseWs u) = collapseWs u := jsTrim_collapseWs hu
    have hstep2 : lowerStr (jsTrim (collapseWs u)) = collapseWs u := by
      rw [lowerStr_jsTrim, hlow, hyt]
    rw [normalizeAnswer_eq_normTail, hstep2]
    unfold normTail
    rw [stageQuote_eq_self hqc, stagePunct_eq_self hyt hpc]
    have hnc : ¬ ',' ∈ collapseWs u := by
      intro h
      rcases mem_collapseAux h with h | h
      · exact hcm h
      · simp at h
    have hscy : stageComma (collapseWs u) = collapseWs u := by
      unfold stageComma
      rw [if_neg (fun h => hnc (List.elem_iff.mp h))]
    rw [hscy]
    exact collapseWs_idem u

-- ── Claim C4 ─────────────────────────────────────────

/-- Claim C4 counterexample: `normalizeAnswer` is not idempotent.  For the
input `"a. !"` the trailing-punctuation strip leaves `"a."` (the regex only
removes the final maximal `[.!]` run, and the subsequent trim exposes a new
trailing period), which renormalizes to `"a"`.  For `"''a''"` the single
quote-strip leaves `"'a'"`, which is again quote-wrapped and renormalizes
to `"a"`. -/
theorem c4_idem_counterexample :
    normalizeAnswer (normalizeAnswer (cs "a. !")) ≠ normalizeAnswer (cs "a. !") ∧
    normalizeAnswer (normalizeAnswer (cs "''a''")) ≠ normalizeAnswer (cs "''a''") :=
  ⟨by decide, by decide⟩

/-- Claim C4 (amended): `normalizeAnswer` is idempotent for every input whose
normalized form is not wrapped in a matching pair of quote characters and does
not end in `.` or `!`; it is a pure function of its input (its embedding is a
Lean function). -/
theorem c4_idem_amended (x : Str)
    (hqc : quoteCond (normalizeAnswer x) = false)
    (hpc : ∀ c, (normalizeAnswer x).getLast? = some c → isPunctChar c = false) :
    normalizeAnswer (normalizeAnswer x) = normalizeAnswer x :=
  renorm_key (jsTrim_idem _) (lowerStr_normalizeAnswer x) hqc hpc

/-- Claim C4 amended witness: concrete instantiation at `"  A, b ,c.. "`,
whose normalized form is `"a, b, c"`. -/
theorem c4_idem_amended_witness :
    quoteCond (normalizeAnswer (cs "  A, b ,c.. ")) = false ∧
    normalizeAnswer (normalizeAnswer (cs "  A, b ,c.. ")) =
      normalizeAnswer (cs "  A, b ,c.. ") := by
  refine ⟨by decide, c4_idem_amended (cs "  A, b ,c.. ") (by decide) ?_⟩
  intro c hc
  rw [show (normalizeAnswer (cs "  A, b ,c.. ")).getLast? = some 'c' from by decide] at hc
  obtain rfl : 'c' = c := Option.some.inj hc
  decide

-- ── JSON values ──────────────────────────────────────

/-- Left curly brace (written by code point to keep braces out of literals). -/
def lbrace : Char := Char.ofNat 123

/-- Right curly brace. -/
def rbrace : Char := Char.ofNat 125

def backslash : Char := Char.ofNat 92

mutual
/-- JSON values as JavaScript sees them: the payloads of this library are
objects of strings and integer-valued numbers, so numbers are embedded as
integers (the only numbers the library ever writes). -/
inductive Json where
  | null : Json
  | bool (b : Bool) : Json
  | num (n : Int) : Json
  | str (s : Str) : Json
  | arr (xs : JsonList) : Json
  | obj (ms : JsonMembers) : Json

inductive JsonList where
  | nil : JsonList
  | cons (hd : Json) (tl : JsonList) : JsonList

/-- Object members in insertion order, as `JSON.stringify` emits them for the
string-keyed objects this library builds. -/
inductive JsonMembers where
  | nil : JsonMembers
  | cons (k : Str) (v : Json) (tl : JsonMembers) : JsonMembers
end

-- ── Decimal printing of integers ─────────────────────

def digitChar (n : Nat) : Char := Char.ofNat (48 + n)

/-- Little-endian base-10 digits with structural fuel (so that the kernel can
evaluate it); `natDigits n` agrees with `Nat.digits 10 n`. -/
def natDigitsAux : Nat → Nat → List Nat
  | 0, _ => []
  | fuel + 1, n => if n = 0 then [] else (n % 10) :: natDigitsAux fuel (n / 10)

def natDigits (n : Nat) : List Nat := natDigitsAux n n

theorem natDigitsAux_eq {fuel n : Nat} (h : n ≤ fuel) :
    natDigitsAux fuel n = Nat.digits 10 n := by
  induction fuel generalizing n with
  | zero =>
    have : n = 0 := by omega
    subst this
    simp [natDigitsAux]
  | succ fuel ih =>
    by_cases hn : n = 0
    · subst hn; simp [natDigitsAux]
    · have hdiv : n / 10 ≤ fuel := by omega
      rw [natDigitsAux, if_neg hn, ih hdiv]
      exact (Nat.digits_def' (by norm_num) (Nat.pos_of_ne_zero hn)).symm

theorem natDigits_eq (n : Nat) : natDigits n = Nat.digits 10 n :=
  natDigitsAux_eq (Nat.le_refl n)

def natToChars (n : Nat) : Str :=
  if n = 0 then ['0'] else (natDigits n).reverse.map digitChar

def intToChars (i : Int) : Str :=
  if i < 0 then '-' :: natToChars i.natAbs else natToChars i.toNat

-- ── JSON.stringify ───────────────────────────────────

def hexDigitChar (n : Nat) : Char :=
  if n < 10 then Char.ofNat (48 + n) else Char.ofNat (87 + n)

/-- How `JSON.stringify` escapes one character of a string. -/
def escapeChar (c : Char) : Str :=
  if c = '"' then [backslash, '"']
  else if c = backslash then [backslash, backslash]
  else if c.toNat = 8 then [backslash, 'b']
  else if c.toNat = 9 then [backslash, 't']
  else if c.toNat = 10 then [backslash, 'n']
  else if c.toNat = 12 then [backslash, 'f']
  else if c.toNat = 13 then [backslash, 'r']
  else if c.toNat < 32 then
    [backslash, 'u', '0', '0', hexDigitChar (c.toNat / 16), hexDigitChar (c.toNat % 16)]
  else [c]

def quoteStr (s : Str) : Str := '"' :: (s.map escapeChar).flatten ++ ['"']

mutual
/-- `JSON.stringify` (no spacing argument): the exact character sequence
emitted for a JSON value. -/
def stringify : Json → Str
  | .null => cs "null"
  | .bool true => cs "true"
  | .bool false => cs "false"
  | .num n => intToChars n
  | .str s => quoteStr s
  | .arr xs => '[' :: stringifyList xs ++ [']']
  | .obj ms => lbrace :: stringifyMembers ms ++ [rbrace]

def stringifyList : JsonList → Str
  | .nil => []
  | .cons v .nil => stringify v
  | .cons v (.cons w tl) => stringify v ++ ',' :: stringifyList (.cons w tl)

def stringifyMembers : JsonMembers → Str
  | .nil => []
  | .cons k v .nil => quoteStr k ++ ':' :: stringify v
  | .cons k v (.cons k2 w tl) =>
      quoteStr k ++ ':' :: stringify v ++ ',' :: stringifyMembers (.cons k2 w tl)
end

-- ── JSON.parse ───────────────────────────────────────

/-- JSON insignificant whitespace (space, tab, LF, CR). -/
def isJsonWs (c : Char) : Bool :=
  c.toNat = 32 || c.toNat = 9 || c.toNat = 10 || c.toNat = 13

def skipWs (l : Str) : Str := l.dropWhile isJsonWs

def isDigitChar (c : Char) : Bool := 48 ≤ c.toNat && c.toNat ≤ 57

def digitVal (c : Char) : Nat := c.toNat - 48

def hexVal (c : Char) : Option Nat :=
  if 48 ≤ c.toNat ∧ c.toNat ≤ 57 then some (c.toNat - 48)
  else if 97 ≤ c.toNat ∧ c.toNat ≤ 102 then some (c.toNat - 87)
  else if 65 ≤ c.toNat ∧ c.toNat ≤ 70 then some (c.toNat - 55)
  else none

def parseHex4 : Str → Option (Nat × Str)
  | c1 :: c2 :: c3 :: c4 :: rest =>
    match hexVal c1, hexVal c2, hexVal c3, hexVal c4 with
    | some a, some b, some c, some d => some (((a * 16 + b) * 16 + c) * 16 + d, rest)
    | _, _, _, _ => none
  | _ => none

/-- Characters that may not follow a complete JSON number for the number parse
to be maximal (the model rejects fraction/exponent syntax outright: the library
only writes integers). -/
def isNumTail (c : Char) : Bool :=
  isDigitChar c || c = '.' || c = 'e' || c = 'E'

/-- Parse the body of a JSON string after the opening quote, returning the
decoded content and the input after the closing quote.  Escapes are decoded as
`JSON.parse` does; a lone surrogate escape is rejected (Lean characters are
Unicode scalar values — a model concession; the printer never emits one). -/
def parseStringBody : Nat → Str → Option (Str × Str)
  | 0, _ => none
  | _ + 1, [] => none
  | fuel + 1, c :: rest =>
    if c = '"' then some ([], rest)
    else if c = backslash then
      match rest with
      | [] => none
      | e :: rest2 =>
        if e = '"' then (parseStringBody fuel rest2).map (fun p => ('"' :: p.1, p.2))
        else if e = backslash then
          (parseStringBody fuel rest2).map (fun p => (backslash :: p.1, p.2))
        else if e = '/' then (parseStringBody fuel rest2).map (fun p => ('/' :: p.1, p.2))
        else if e = 'b' then
          (parseStringBody fuel rest2).map (fun p => (Char.ofNat 8 :: p.1, p.2))
        else if e = 'f' then
          (parseStringBody fuel rest2).map (fun p => (Char.ofNat 12 :: p.1, p.2))
        else if e = 'n' then
          (parseStringBody fuel rest2).map (fun p => (Char.ofNat 10 :: p.1, p.2))
        else if e = 'r' then
          (parseStringBody fuel rest2).map (fun p => (Char.ofNat 13 :: p.1, p.2))
        else if e = 't' then
          (parseStringBody fuel rest2).map (fun p => (Char.ofNat 9 :: p.1, p.2))
        else if e = 'u' then
          match parseHex4 rest2 with
          | none => none
          | some (n, rest3) =>
            if 0xd800 ≤ n ∧ n ≤ 0xdbff then
              match rest3 with
              | b1 :: b2 :: rest4 =>
                if b1 = backslash ∧ b2 = 'u' then
                  match parseHex4 rest4 with
                  | some (m, rest5) =>
                    if 0xdc00 ≤ m ∧ m ≤ 0xdfff then
                      (parseStringBody fuel rest5).map
                        (fun p =>
                          (Char.ofNat (0x10000 + (n - 0xd800) * 0x400 + (m - 0xdc00)) ::
                            p.1, p.2))
                    else none
                  | none => none
                else none
              | _ => none
            else if 0xdc00 ≤ n ∧ n ≤ 0xdfff then none
            else (parseStringBody fuel rest3).map (fun p => (Char.ofNat n :: p.1, p.2))
        else none
    else if c.toNat < 32 then none
    else (parseStringBody fuel rest).map (fun p => (c :: p.1, p.2))

/-- Parse an unsigned JSON integer (digit run, no leading zero), failing if
fraction or exponent syntax follows (the library only writes integers). -/
def parseNumberCore (m : Str) : Option (Nat × Str) :=
  let ds := m.takeWhile isDigitChar
  let rest := m.dropWhile isDigitChar
  if ds = [] then none
  else if 2 ≤ ds.length ∧ ds.head? = some '0' then none
  else
    match rest.head? with
    | some c =>
      if isNumTail c then none
      else some (ds.foldl (fun a d => 10 * a + digitVal d) 0, rest)
    | none => some (ds.foldl (fun a d => 10 * a + digitVal d) 0, rest)

/-- Parse a JSON integer with an optional leading minus. -/
def parseNumber (l : Str) : Option (Int × Str) :=
  match l with
  | [] => none
  | c :: m =>
    if c = '-' then (parseNumberCore m).map (fun p => (-(p.1 : Int), p.2))
    else (parseNumberCore (c :: m)).map (fun p => ((p.1 : Int), p.2))

/-- Match an expected literal character sequence. -/
def expectChars : Str → Str → Option Str
  | [], l => some l
  | _ :: _, [] => none
  | c :: cs1, d :: l => if c = d then expectChars cs1 l else none

mutual
/-- Model of `JSON.parse` value parsing (fueled recursive descent). -/
def parseValue : Nat → Str → Option (Json × Str)
  | 0, _ => none
  | fuel + 1, l =>
    match skipWs l with
    | [] => none
    | c :: rest =>
      if c = 'n' then (expectChars (cs "ull") rest).map (fun r => (Json.null, r))
      else if c = 't' then (expectChars (cs "rue") rest).map (fun r => (Json.bool true, r))
      else if c = 'f' then
        (expectChars (cs "alse") rest).map (fun r => (Json.bool false, r))
      else if c = '"' then
        (parseStringBody (rest.length + 1) rest).map (fun p => (Json.str p.1, p.2))
      else if c = '[' then
        match skipWs rest with
        | [] => none
        | d :: rest2 =>
          if d = ']' then some (Json.arr JsonList.nil, rest2)
          else (parseElems fuel (d :: rest2)).map (fun p => (Json.arr p.1, p.2))
      else if c = lbrace then
        match skipWs rest with
        | [] => none
        | d :: rest2 =>
          if d = rbrace then some (Json.obj JsonMembers.nil, rest2)
          else (parseMembers fuel (d :: rest2)).map (fun p => (Json.obj p.1, p.2))
      else if c = '-' ∨ isDigitChar c then
        (parseNumber (c :: rest)).map (fun p => (Json.num p.1, p.2))
      else none

/-- Parse one or more array elements up to the closing bracket. -/
def parseElems : Nat → Str → Option (JsonList × Str)
  | 0, _ => none
  | fuel + 1, l =>
    match parseValue fuel l with
    | none => none
    | some (v, r) =>
      match skipWs r with
      | [] => none
      | c :: r2 =>
        if c = ',' then (parseElems fuel r2).map (fun p => (JsonList.cons v p.1, p.2))
        else if c = ']' then some (JsonList.cons v JsonList.nil, r2)
        else none

/-- Parse one or more object members up to the closing brace. -/
def parseMembers : Nat → Str → Option (JsonMembers × Str)
  | 0, _ => none
  | fuel + 1, l =>
    match skipWs l with
    | [] => none
    | c :: r =>
      if c = '"' then
        match parseStringBody (r.length + 1) r with
        | none => none
        | some (k, r2) =>
          match skipWs r2 with
          | [] => none
          | d :: r3 =>
            if d = ':' then
              match parseValue fuel r3 with
              | none => none
              | some (v, r4) =>
                match skipWs r4 with
                | [] => none
                | e :: r5 =>
                  if e = ',' then
                    (parseMembers fuel r5).map (fun p => (JsonMembers.cons k v p.1, p.2))
                  else if e = rbrace then some (JsonMembers.cons k v JsonMembers.nil, r5)
                  else none
            else none
      else none
end

/-- Model of `JSON.parse`: parse one value and insist nothing but whitespace
follows; `none` models a thrown `SyntaxError`. -/
def jsonParse (l : Str) : Option Json :=
  match parseValue (l.length + 1) l with
  | some (v, r) => if skipWs r = [] then some v else none
  | none => none

-- ── Number printing / parsing round trip ─────────────

theorem digitChar_toNat {d : Nat} (h : d < 10) : (digitChar d).toNat = 48 + d :=
  toNat_ofNat_valid (isValidChar_of_lt (by omega))

theorem isDigitChar_digitChar {d : Nat} (h : d < 10) : isDigitChar (digitChar d) = true := by
  simp only [isDigitChar, digitChar_toNat h, Bool.and_eq_true, decide_eq_true_eq]
  omega

theorem digitVal_digitChar {d : Nat} (h : d < 10) : digitVal (digitChar d) = d := by
  simp only [digitVal, digitChar_toNat h]
  omega

theorem natToChars_ne_nil (n : Nat) : natToChars n ≠ [] := by
  unfold natToChars
  split
  · simp
  · intro h
    rw [List.map_eq_nil_iff, List.reverse_eq_nil_iff, natDigits_eq,
      Nat.digits_eq_nil_iff_eq_zero] at h
    simp_all

theorem natDigits_lt (n : Nat) : ∀ d ∈ natDigits n, d < 10 := by
  rw [natDigits_eq]
  intro d hd
  exact Nat.digits_lt_base (by norm_num) hd

theorem natToChars_all_digits (n : Nat) : ∀ c ∈ natToChars n, isDigitChar c = true := by
  unfold natToChars
  split
  · intro c hc
    simp only [List.mem_singleton] at hc
    subst hc; decide
  · intro c hc
    obtain ⟨d, hd, rfl⟩ := List.mem_map.mp hc
    exact isDigitChar_digitChar (natDigits_lt n d (List.mem_reverse.mp hd))

theorem takeWhile_append_all {p : Char → Bool} {l1 l2 : Str}
    (h1 : ∀ c ∈ l1, p c = true) (h2 : ∀ c, l2.head? = some c → p c = false) :
    (l1 ++ l2).takeWhile p = l1 := by
  induction l1 with
  | nil =>
    cases l2 with
    | nil => rfl
    | cons c t => simp [List.takeWhile_cons, h2 c rfl]
  | cons c t ih =>
    rw [List.cons_append, List.takeWhile_cons, h1 c (by simp)]
    simp only [if_true]
    rw [ih (fun d hd => h1 d (by simp [hd]))]

theorem dropWhile_append_all {p : Char → Bool} {l1 l2 : Str}
    (h1 : ∀ c ∈ l1, p c = true) (h2 : ∀ c, l2.head? = some c → p c = false) :
    (l1 ++ l2).dropWhile p = l2 := by
  induction l1 with
  | nil =>
    cases l2 with
    | nil => rfl
    | cons c t => simp [List.dropWhile_cons, h2 c rfl]
  | cons c t ih =>
    rw [List.cons_append, List.dropWhile_cons, h1 c (by simp)]
    simp only [if_true]
    exact ih (fun d hd => h1 d (by simp [hd]))

theorem foldl_digits (ds : List Nat) (h : ∀ d ∈ ds, d < 10) (acc : Nat) :
    (ds.reverse.map digitChar).foldl (fun a d => 10 * a + digitVal d) acc =
      acc * 10 ^ ds.length + Nat.ofDigits 10 ds := by
  induction ds generalizing acc with
  | nil => simp
  | cons d tl ih =>
    have hd : d < 10 := h d (by simp)
    rw [List.reverse_cons, List.map_append, List.foldl_append]
    rw [ih (fun e he => h e (by simp [he]))]
    simp only [List.map_cons, List.map_nil, List.foldl_cons, List.foldl_nil]
    rw [digitVal_digitChar hd, Nat.ofDigits_cons]
    simp only [List.length_cons, pow_succ]
    ring

theorem natToChars_value (n : Nat) :
    (natToChars n).foldl (fun a d => 10 * a + digitVal d) 0 = n := by
  unfold natToChars
  split
  · simp_all [digitVal]
  · rw [foldl_digits (natDigits n) (natDigits_lt n) 0]
    rw [natDigits_eq, Nat.ofDigits_digits]
    simp

theorem natToChars_guard (n : Nat) :
    ¬ (2 ≤ (natToChars n).length ∧ (natToChars n).head? = some '0') := by
  by_cases hn : n = 0
  · subst hn
    rintro ⟨hlen, -⟩
    simp [natToChars] at hlen
  · rintro ⟨-, hhead⟩
    unfold natToChars at hhead
    rw [if_neg hn] at hhead
    obtain ⟨ds0, hds0⟩ : ∃ x, (natDigits n).reverse = x :: (natDigits n).reverse.tail := by
      cases hr : (natDigits n).reverse with
      | nil =>
        rw [List.reverse_eq_nil_iff, natDigits_eq, Nat.digits_eq_nil_iff_eq_zero] at hr
        exact absurd hr hn
      | cons a b => exact ⟨a, rfl⟩
    rw [hds0, List.map_cons, List.head?_cons, Option.some.injEq] at hhead
    have hlt : ds0 < 10 := natDigits_lt n ds0 (by rw [← List.mem_reverse, hds0]; simp)
    have h0 : ds0 = 0 := by
      have := congrArg Char.toNat hhead.symm
      rw [digitChar_toNat hlt] at this
      have h48 : ('0' : Char).toNat = 48 := by decide
      omega
    subst h0
    have hlast : (natDigits n).getLast? = some 0 := by
      rw [List.getLast?_eq_head?_reverse, hds0]
      rfl
    rw [natDigits_eq] at hlast
    have hne : Nat.digits 10 n ≠ [] := fun h =>
      hn (Nat.digits_eq_nil_iff_eq_zero.mp h)
    have := Nat.getLast_digit_ne_zero 10 hn
    rw [List.getLast?_eq_getLast _ hne, Option.some.injEq] at hlast
    exact this hlast

/-- Nothing that could extend a JSON number follows. -/
def SafeRest (rest : Str) : Prop := ∀ c, rest.head? = some c → isNumTail c = false

theorem parseNumberCore_print {n : Nat} {rest : Str} (hrest : SafeRest rest) :
    parseNumberCore (natToChars n ++ rest) = some (n, rest) := by
  have hdig := natToChars_all_digits n
  have hrest2 : ∀ c, rest.head? = some c → isDigitChar c = false := by
    intro c hc
    have := hrest c hc
    simp only [isNumTail, Bool.or_eq_false_iff] at this
    exact this.1.1.1
  have htake : (natToChars n ++ rest).takeWhile isDigitChar = natToChars n :=
    takeWhile_append_all hdig hrest2
  have hdrop : (natToChars n ++ rest).dropWhile isDigitChar = rest :=
    dropWhile_append_all hdig hrest2
  unfold parseNumberCore
  simp only [htake, hdrop]
  rw [if_neg (natToChars_ne_nil n), if_neg (natToChars_guard n)]
  cases hr : rest.head? with
  | none => simp only [natToChars_value]
  | some c =>
    have hnt := hrest c hr
    simp only [hnt, Bool.false_eq_true, if_false, natToChars_value]

theorem char_minus_of_digit {c : Char} (h : isDigitChar c = true) : ¬ (c = '-') := by
  intro he
  subst he
  simp [isDigitChar] at h

theorem parseNumber_cons_minus (m : Str) :
    parseNumber ('-' :: m) = (parseNumberCore m).map (fun p => (-(p.1 : Int), p.2)) := by
  show (if ('-' : Char) = '-' then (parseNumberCore m).map (fun p => (-(p.1 : Int), p.2))
    else (parseNumberCore ('-' :: m)).map (fun p => ((p.1 : Int), p.2))) = _
  rw [if_pos rfl]

theorem parseNumber_cons_other {c : Char} (h : ¬ c = '-') (m : Str) :
    parseNumber (c :: m) = (parseNumberCore (c :: m)).map (fun p => ((p.1 : Int), p.2)) := by
  show (if c = '-' then (parseNumberCore m).map (fun p => (-(p.1 : Int), p.2))
    else (parseNumberCore (c :: m)).map (fun p => ((p.1 : Int), p.2))) = _
  rw [if_neg h]

theorem parseNumber_print {i : Int} {rest : Str} (hrest : SafeRest rest) :
    parseNumber (intToChars i ++ rest) = some (i, rest) := by
  unfold intToChars
  by_cases hi : i < 0
  · rw [if_pos hi, List.cons_append, parseNumber_cons_minus, parseNumberCore_print hrest]
    simp only [Option.map_some']
    congr 2
    omega
  · rw [if_neg hi]
    obtain ⟨c, m, hcm⟩ : ∃ c m, natToChars i.toNat = c :: m := by
      cases hx : natToChars i.toNat with
      | nil => exact absurd hx (natToChars_ne_nil _)
      | cons a b => exact ⟨a, b, rfl⟩
    rw [hcm, List.cons_append,
      parseNumber_cons_other (char_minus_of_digit (natToChars_all_digits _ c (by rw [hcm]; simp))),
      ← List.cons_append, ← hcm, parseNumberCore_print hrest]
    simp only [Option.map_some']
    congr 2
    omega

-- ── String escape round trip ─────────────────────────

theorem hexVal_hexDigitChar {d : Nat} (h : d < 16) : hexVal (hexDigitChar d) = some d := by
  unfold hexVal hexDigitChar
  by_cases hd : d < 10
  · rw [if_pos hd]
    have ht : (Char.ofNat (48 + d)).toNat = 48 + d :=
      toNat_ofNat_valid (isValidChar_of_lt (by omega))
    rw [if_pos (by omega)]
    congr 1
    omega
  · rw [if_neg hd]
    have ht : (Char.ofNat (87 + d)).toNat = 87 + d :=
      toNat_ofNat_valid (isValidChar_of_lt (by omega))
    rw [if_neg (by omega), if_pos (by omega)]
    congr 1
    omega

theorem parseHex4_print {t : Nat} (h : t < 32) (rest : Str) :
    parseHex4 ('0' :: '0' :: hexDigitChar (t / 16) :: hexDigitChar (t % 16) :: rest) =
      some (t, rest) := by
  have h0 : hexVal '0' = some 0 := by decide
  simp only [parseHex4, h0, hexVal_hexDigitChar (show t / 16 < 16 by omega),
    hexVal_hexDigitChar (show t % 16 < 16 by omega)]
  simp only [Option.some.injEq, Prod.mk.injEq]
  refine ⟨by omega, trivial⟩

theorem psb_quote (fuel : Nat) (rest : Str) :
    parseStringBody (fuel + 1) ('"' :: rest) = some ([], rest) := by
  unfold parseStringBody
  rw [if_pos rfl]

theorem psb_normal {c : Char} (h1 : ¬ c = '"') (h2 : ¬ c = backslash)
    (h3 : ¬ c.toNat < 32) (fuel : Nat) (rest : Str) :
    parseStringBody (fuel + 1) (c :: rest) =
      (parseStringBody fuel rest).map (fun p => (c :: p.1, p.2)) := by
  conv_lhs => unfold parseStringBody
  rw [if_neg h1, if_neg h2, if_neg h3]

theorem psb_esc_quote (fuel : Nat) (rest : Str) :
    parseStringBody (fuel + 1) (backslash :: '"' :: rest) =
      (parseStringBody fuel rest).map (fun p => ('"' :: p.1, p.2)) := rfl

theorem psb_esc_backslash (fuel : Nat) (rest : Str) :
    parseStringBody (fuel + 1) (backslash :: backslash :: rest) =
      (parseStringBody fuel rest).map (fun p => (backslash :: p.1, p.2)) := rfl

theorem psb_esc_b (fuel : Nat) (rest : Str) :
    parseStringBody (fuel + 1) (backslash :: 'b' :: rest) =
      (parseStringBody fuel rest).map (fun p => (Char.ofNat 8 :: p.1, p.2)) := rfl

theorem psb_esc_t (fuel : Nat) (rest : Str) :
    parseStringBody (fuel + 1) (backslash :: 't' :: rest) =
      (parseStringBody fuel rest).map (fun p => (Char.ofNat 9 :: p.1, p.2)) := rfl

theorem psb_esc_n (fuel : Nat) (rest : Str) :
    parseStringBody (fuel + 1) (backslash :: 'n' :: rest) =
      (parseStringBody fuel rest).map (fun p => (Char.ofNat 10 :: p.1, p.2)) := rfl

theorem psb_esc_f (fuel : Nat) (rest : Str) :
    parseStringBody (fuel + 1) (backslash :: 'f' :: rest) =
      (parseStringBody fuel rest).map (fun p => (Char.ofNat 12 :: p.1, p.2)) := rfl

theorem psb_esc_r (fuel : Nat) (rest : Str) :
    parseStringBody (fuel + 1) (backslash :: 'r' :: rest) =
      (parseStringBody fuel rest).map (fun p => (Char.ofNat 13 :: p.1, p.2)) := rfl

theorem psb_after_u (fuel : Nat) (rest2 : Str) :
    parseStringBody (fuel + 1) (backslash :: 'u' :: rest2) =
      (match parseHex4 rest2 with
        | none => none
        | some (n, rest3) =>
          if 0xd800 ≤ n ∧ n ≤ 0xdbff then
            match rest3 with
            | b1 :: b2 :: rest4 =>
              if b1 = backslash ∧ b2 = 'u' then
                match parseHex4 rest4 with
                | some (m, rest5) =>
                  if 0xdc00 ≤ m ∧ m ≤ 0xdfff then
                    (parseStringBody fuel rest5).map
                      (fun p =>
                        (Char.ofNat (0x10000 + (n - 0xd800) * 0x400 + (m - 0xdc00)) ::
                          p.1, p.2))
                  else none
                | none => none
              else none
            | _ => none
          else if 0xdc00 ≤ n ∧ n ≤ 0xdfff then none
          else (parseStringBody fuel rest3).map (fun p => (Char.ofNat n :: p.1, p.2))) := rfl

theorem psb_esc_u {t : Nat} (h : t < 32) (fuel : Nat) (rest : Str) :
    parseStringBody (fuel + 1)
      (backslash :: 'u' :: '0' :: '0' :: hexDigitChar (t / 16) ::
        hexDigitChar (t % 16) :: rest) =
      (parseStringBody fuel rest).map (fun p => (Char.ofNat t :: p.1, p.2)) := by
  rw [psb_after_u, parseHex4_print h]
  have h1 : ¬ (0xd800 ≤ t ∧ t ≤ 0xdbff) := by omega
  have h2 : ¬ (0xdc00 ≤ t ∧ t ≤ 0xdfff) := by omega
  simp only [if_neg h1, if_neg h2]

theorem escapeChar_of_eight {c : Char} (h : c.toNat = 8) : escapeChar c = [backslash, 'b'] := by
  unfold escapeChar
  rw [if_neg (fun he => by subst he; exact absurd h (by decide)),
    if_neg (fun he => by subst he; exact absurd h (by decide)), if_pos h]

theorem escapeChar_of_nine {c : Char} (h : c.toNat = 9) : escapeChar c = [backslash, 't'] := by
  unfold escapeChar
  rw [if_neg (fun he => by subst he; exact absurd h (by decide)),
    if_neg (fun he => by subst he; exact absurd h (by decide)),
    if_neg (by omega), if_pos h]

theorem escapeChar_of_ten {c : Char} (h : c.toNat = 10) : escapeChar c = [backslash, 'n'] := by
  unfold escapeChar
  rw [if_neg (fun he => by subst he; exact absurd h (by decide)),
    if_neg (fun he => by subst he; exact absurd h (by decide)),
    if_neg (by omega), if_neg (by omega), if_pos h]

theorem escapeChar_of_twelve {c : Char} (h : c.toNat = 12) :
    escapeChar c = [backslash, 'f'] := by
  unfold escapeChar
  rw [if_neg (fun he => by subst he; exact absurd h (by decide)),
    if_neg (fun he => by subst he; exact absurd h (by decide)),
    if_neg (by omega), if_neg (by omega), if_neg (by omega), if_pos h]

theorem escapeChar_of_thirteen {c : Char} (h : c.toNat = 13) :
    escapeChar c = [backslash, 'r'] := by
  unfold escapeChar
  rw [if_neg (fun he => by subst he; exact absurd h (by decide)),
    if_neg (fun he => by subst he; exact absurd h (by decide)),
    if_neg (by omega), if_neg (by omega), if_neg (by omega), if_neg (by omega), if_pos h]

theorem escapeChar_of_ctl {c : Char} (h : c.toNat < 32) (h8 : ¬ c.toNat = 8)
    (h9 : ¬ c.toNat = 9) (h10 : ¬ c.toNat = 10) (h12 : ¬ c.toNat = 12)
    (h13 : ¬ c.toNat = 13) :
    escapeChar c =
      [backslash, 'u', '0', '0', hexDigitChar (c.toNat / 16), hexDigitChar (c.toNat % 16)] := by
  unfold escapeChar
  rw [if_neg (fun he => by subst he; exact absurd h (by decide)),
    if_neg (fun he => by subst he; exact absurd h (by decide)),
    if_neg h8, if_neg h9, if_neg h10, if_neg h12, if_neg h13, if_pos h]

theorem escapeChar_normal {c : Char} (h1 : ¬ c = '"') (h2 : ¬ c = backslash)
    (h3 : ¬ c.toNat < 32) : escapeChar c = [c] := by
  unfold escapeChar
  rw [if_neg h1, if_neg h2, if_neg (by omega), if_neg (by omega), if_neg (by omega),
    if_neg (by omega), if_neg (by omega), if_neg h3]

theorem ofNat_toNat_char (c : Char) : Char.ofNat c.toNat = c := by
  rw [char_eq_iff, toNat_ofNat_valid]
  rcases c.valid with h | h
  · exact Or.inl h
  · exact Or.inr ⟨h.1, h.2⟩

/-- The printed escaped form of a string parses back to the string, consuming
the closing quote. -/
theorem parseStringBody_print (s : Str) : ∀ (fuel : Nat) (rest : Str), s.length < fuel →
    parseStringBody fuel ((s.map escapeChar).flatten ++ '"' :: rest) = some (s, rest) := by
  induction s with
  | nil =>
    intro fuel rest hf
    obtain ⟨f, rfl⟩ : ∃ f, fuel = f + 1 := ⟨fuel - 1, by omega⟩
    simp only [List.map_nil, List.flatten_nil, List.nil_append]
    exact psb_quote f rest
  | cons c tl ih =>
    intro fuel rest hf
    obtain ⟨f, rfl⟩ : ∃ f, fuel = f + 1 := ⟨fuel - 1, by omega⟩
    have hf2 : tl.length < f := by
      simp only [List.length_cons] at hf
      omega
    have ihr := ih f rest hf2
    simp only [List.map_cons, List.flatten_cons, List.append_assoc]
    by_cases h1 : c = '"'
    · subst h1
      rw [show escapeChar '"' = [backslash, '"'] from rfl]
      rw [List.cons_append, List.cons_append, List.nil_append, psb_esc_quote, ihr]
      rfl
    · by_cases h2 : c = backslash
      · subst h2
        rw [show escapeChar backslash = [backslash, backslash] from by
          unfold escapeChar; rw [if_neg (by decide), if_pos rfl]]
        rw [List.cons_append, List.cons_append, List.nil_append, psb_esc_backslash, ihr]
        rfl
      · by_cases h3 : c.toNat < 32
        · by_cases h8 : c.toNat = 8
          · rw [escapeChar_of_eight h8, List.cons_append, List.cons_append,
              List.nil_append, psb_esc_b, ihr]
            simp only [Option.map_some']
            rw [show Char.ofNat 8 = c from by
              rw [char_eq_iff, toNat_ofNat_valid (isValidChar_of_lt (by omega)), h8]]
          · by_cases h9 : c.toNat = 9
            · rw [escapeChar_of_nine h9, List.cons_append, List.cons_append,
                List.nil_append, psb_esc_t, ihr]
              simp only [Option.map_some']
              rw [show Char.ofNat 9 = c from by
                rw [char_eq_iff, toNat_ofNat_valid (isValidChar_of_lt (by omega)), h9]]
            · by_cases h10 : c.toNat = 10
              · rw [escapeChar_of_ten h10, List.cons_append, List.cons_append,
                  List.nil_append, psb_esc_n, ihr]
                simp only [Option.map_some']
                rw [show Char.ofNat 10 = c from by
                  rw [char_eq_iff, toNat_ofNat_valid (isValidChar_of_lt (by omega)), h10]]
              · by_cases h12 : c.toNat = 12
                · rw [escapeChar_of_twelve h12, List.cons_append, List.cons_append,
                    List.nil_append, psb_esc_f, ihr]
                  simp only [Option.map_some']
                  rw [show Char.ofNat 12 = c from by
                    rw [char_eq_iff, toNat_ofNat_valid (isValidChar_of_lt (by omega)), h12]]
                · by_cases h13 : c.toNat = 13
                  · rw [escapeChar_of_thirteen h13, List.cons_append, List.cons_append,
                      List.nil_append, psb_esc_r, ihr]
                    simp only [Option.map_some']
                    rw [show Char.ofNat 13 = c from by
                      rw [char_eq_iff, toNat_ofNat_valid (isValidChar_of_lt (by omega)), h13]]
                  · rw [escapeChar_of_ctl h3 h8 h9 h10 h12 h13]
                    rw [List.cons_append, List.cons_append, List.cons_append,
                      List.cons_append, List.cons_append, List.cons_append,
                      List.nil_append, psb_esc_u h3, ihr]
                    simp only [Option.map_some']
                    rw [ofNat_toNat_char c]
        · rw [escapeChar_normal h1 h2 h3, List.cons_append, List.nil_append,
            psb_normal h1 h2 h3, ihr]
          rfl

-- ── Value round trip: sizes and step lemmas ──────────

mutual
/-- Fuel needed by `parseValue` to parse the printed form of a value. -/
def sizeJ : Json → Nat
  | .null => 1
  | .bool _ => 1
  | .num _ => 1
  | .str _ => 1
  | .arr xs => sizeL xs + 1
  | .obj ms => sizeM ms + 1

def sizeL : JsonList → Nat
  | .nil => 0
  | .cons v tl => max (sizeJ v) (sizeL tl) + 1

def sizeM : JsonMembers → Nat
  | .nil => 0
  | .cons _ v tl => max (sizeJ v) (sizeM tl) + 1
end

theorem sizeJ_pos (v : Json) : 1 ≤ sizeJ v := by
  cases v <;> simp [sizeJ]

mutual
theorem sizeJ_le : ∀ v : Json, sizeJ v ≤ (stringify v).length
  | .null => by decide
  | .bool b => by cases b <;> decide
  | .num n => by
    have h : intToChars n ≠ [] := by
      unfold intToChars
      split
      · simp
      · exact natToChars_ne_nil _
    have := List.length_pos.mpr h
    simpa [sizeJ, stringify] using this
  | .str s => by
    simp [sizeJ, stringify, quoteStr]
  | .arr xs => by
    have h := sizeL_le xs
    simp only [sizeJ, stringify, List.length_cons, List.length_append]
    omega
  | .obj ms => by
    have h := sizeM_le ms
    simp only [sizeJ, stringify, List.length_cons, List.length_append]
    omega

theorem sizeL_le : ∀ xs : JsonList, sizeL xs ≤ (stringifyList xs).length + 1
  | .nil => by simp [sizeL]
  | .cons v .nil => by
    have h := sizeJ_le v
    simp only [sizeL, sizeL.eq_def, stringifyList]
    omega
  | .cons v (.cons w tl) => by
    have h1 := sizeJ_le v
    have h2 := sizeL_le (.cons w tl)
    simp only [sizeL, stringifyList, List.length_append, List.length_cons] at h2 ⊢
    omega

theorem sizeM_le : ∀ ms : JsonMembers, sizeM ms ≤ (stringifyMembers ms).length + 1
  | .nil => by simp [sizeM]
  | .cons k v .nil => by
    have h := sizeJ_le v
    simp only [sizeM, stringifyMembers, List.length_append, List.length_cons]
    omega
  | .cons k v (.cons k2 w tl) => by
    have h1 := sizeJ_le v
    have h2 := sizeM_le (.cons k2 w tl)
    simp only [sizeM, stringifyMembers, List.length_append, List.length_cons] at h2 ⊢
    omega
end

theorem expectChars_self (p : Str) : ∀ l, expectChars p (p ++ l) = some l := by
  induction p with
  | nil => intro l; rfl
  | cons c t ih =>
    intro l
    rw [List.cons_append]
    unfold expectChars
    rw [if_pos rfl]
    exact ih l

theorem escapeChar_length (c : Char) : 1 ≤ (escapeChar c).length := by
  unfold escapeChar
  split_ifs <;> simp

theorem length_le_flatten_escape (s : Str) :
    s.length ≤ ((s.map escapeChar).flatten).length := by
  induction s with
  | nil => simp
  | cons c t ih =>
    simp only [List.map_cons, List.flatten_cons, List.length_append, List.length_cons]
    have := escapeChar_length c
    omega

/-- The first character of every printed value: never whitespace, never a
closing bracket or brace, never a comma. -/
theorem stringify_head (v : Json) :
    ∃ c t, stringify v = c :: t ∧ isJsonWs c = false ∧ ¬ c = ']' ∧ ¬ c = rbrace := by
  cases v with
  | null => refine ⟨'n', _, rfl, ?_, ?_, ?_⟩ <;> decide
  | bool b =>
    cases b with
    | true => refine ⟨'t', _, rfl, ?_, ?_, ?_⟩ <;> decide
    | false => refine ⟨'f', _, rfl, ?_, ?_, ?_⟩ <;> decide
  | num n =>
    show ∃ c t, intToChars n = c :: t ∧ _
    unfold intToChars
    split
    · refine ⟨'-', _, rfl, ?_, ?_, ?_⟩ <;> decide
    · obtain ⟨c, t, hct⟩ : ∃ c t, natToChars n.toNat = c :: t := by
        cases hx : natToChars n.toNat with
        | nil => exact absurd hx (natToChars_ne_nil _)
        | cons a b => exact ⟨a, b, rfl⟩
      have hd : isDigitChar c = true := natToChars_all_digits _ c (by rw [hct]; simp)
      simp only [isDigitChar, Bool.and_eq_true, decide_eq_true_eq] at hd
      refine ⟨c, t, hct, ?_, ?_, ?_⟩
      · rw [Bool.eq_false_iff]
        intro hw
        simp only [isJsonWs, Bool.or_eq_true, decide_eq_true_eq] at hw
        omega
      · intro he
        rw [char_eq_iff] at he
        have : (']' : Char).toNat = 93 := by decide
        omega
      · intro he
        rw [char_eq_iff] at he
        have : rbrace.toNat = 125 := by decide
        omega
  | str s => refine ⟨'"', _, rfl, ?_, ?_, ?_⟩ <;> decide
  | arr xs => refine ⟨'[', _, rfl, ?_, ?_, ?_⟩ <;> decide
  | obj ms => refine ⟨lbrace, _, rfl, ?_, ?_, ?_⟩ <;> decide

theorem skipWs_cons_not_ws {c : Char} (h : isJsonWs c = false) (l : Str) :
    skipWs (c :: l) = c :: l := by
  simp [skipWs, List.dropWhile_cons, h]

-- ── parseValue step lemmas ───────────────────────────

theorem pv_null {l rest : Str} (h : skipWs l = 'n' :: rest) (fuel : Nat) :
    parseValue (fuel + 1) l = (expectChars (cs "ull") rest).map (fun r => (Json.null, r)) := by
  conv_lhs => unfold parseValue; rw [h]
  rfl

theorem pv_true {l rest : Str} (h : skipWs l = 't' :: rest) (fuel : Nat) :
    parseValue (fuel + 1) l =
      (expectChars (cs "rue") rest).map (fun r => (Json.bool true, r)) := by
  conv_lhs => unfold parseValue; rw [h]
  rfl

theorem pv_false {l rest : Str} (h : skipWs l = 'f' :: rest) (fuel : Nat) :
    parseValue (fuel + 1) l =
      (expectChars (cs "alse") rest).map (fun r => (Json.bool false, r)) := by
  conv_lhs => unfold parseValue; rw [h]
  rfl

theorem pv_str {l rest : Str} (h : skipWs l = '"' :: rest) (fuel : Nat) :
    parseValue (fuel + 1) l =
      (parseStringBody (rest.length + 1) rest).map (fun p => (Json.str p.1, p.2)) := by
  conv_lhs => unfold parseValue; rw [h]
  rfl

theorem pv_arr_empty {l r r2 : Str} (h1 : skipWs l = '[' :: r) (h2 : skipWs r = ']' :: r2)
    (fuel : Nat) : parseValue (fuel + 1) l = some (Json.arr JsonList.nil, r2) := by
  simp only [parseValue, h1, h2]
  rfl

theorem pv_arr_cons {l r r2 : Str} {d : Char} (h1 : skipWs l = '[' :: r)
    (h2 : skipWs r = d :: r2) (hd : ¬ d = ']') (fuel : Nat) :
    parseValue (fuel + 1) l =
      (parseElems fuel (d :: r2)).map (fun p => (Json.arr p.1, p.2)) := by
  simp only [parseValue, h1, h2, if_neg hd]
  rfl

theorem pv_obj_empty {l r r2 : Str} (h1 : skipWs l = lbrace :: r)
    (h2 : skipWs r = rbrace :: r2) (fuel : Nat) :
    parseValue (fuel + 1) l = some (Json.obj JsonMembers.nil, r2) := by
  simp only [parseValue, h1, h2]
  rfl

theorem pv_obj_cons {l r r2 : Str} {d : Char} (h1 : skipWs l = lbrace :: r)
    (h2 : skipWs r = d :: r2) (hd : ¬ d = rbrace) (fuel : Nat) :
    parseValue (fuel + 1) l =
      (parseMembers fuel (d :: r2)).map (fun p => (Json.obj p.1, p.2)) := by
  simp only [parseValue, h1, h2, if_neg hd]
  rfl

theorem pv_num {l rest : Str} {c : Char} (h : skipWs l = c :: rest)
    (h1 : ¬ c = 'n') (h2 : ¬ c = 't') (h3 : ¬ c = 'f') (h4 : ¬ c = '"')
    (h5 : ¬ c = '[') (h6 : ¬ c = lbrace) (h7 : c = '-' ∨ isDigitChar c = true)
    (fuel : Nat) :
    parseValue (fuel + 1) l = (parseNumber (c :: rest)).map (fun p => (Json.num p.1, p.2)) := by
  conv_lhs => unfold parseValue; rw [h]
  simp only [if_neg h1, if_neg h2, if_neg h3, if_neg h4, if_neg h5, if_neg h6, if_pos h7]

theorem pe_comma {fuel : Nat} {l r r2 : Str} {v : Json}
    (hpv : parseValue fuel l = some (v, r)) (h2 : skipWs r = ',' :: r2) :
    parseElems (fuel + 1) l =
      (parseElems fuel r2).map (fun p => (JsonList.cons v p.1, p.2)) := by
  simp only [parseElems, hpv, h2]
  rfl

theorem pe_close {fuel : Nat} {l r r2 : Str} {v : Json}
    (hpv : parseValue fuel l = some (v, r)) (h2 : skipWs r = ']' :: r2) :
    parseElems (fuel + 1) l = some (JsonList.cons v JsonList.nil, r2) := by
  simp only [parseElems, hpv, h2]
  rfl

theorem pm_step {fuel : Nat} {l r r2 r3 r4 r5 : Str} {k : Str} {v : Json} {e : Char}
    (h1 : skipWs l = '"' :: r) (hk : parseStringBody (r.length + 1) r = some (k, r2))
    (h2 : skipWs r2 = ':' :: r3) (hv : parseValue fuel r3 = some (v, r4))
    (h3 : skipWs r4 = e :: r5) :
    parseMembers (fuel + 1) l =
      (if e = ',' then (parseMembers fuel r5).map (fun p => (JsonMembers.cons k v p.1, p.2))
       else if e = rbrace then some (JsonMembers.cons k v JsonMembers.nil, r5)
       else none) := by
  simp only [parseMembers, h1, hk, h2, hv, h3]
  rfl

-- ── Value round trip: main induction ─────────────────

theorem safeRest_nil : SafeRest [] := fun c hc => by simp at hc

theorem safeRest_cons {c : Char} (h : isNumTail c = false) (l : Str) : SafeRest (c :: l) := by
  intro d hd
  simp only [List.head?_cons, Option.some.injEq] at hd
  subst hd
  exact h

theorem intToChars_head (i : Int) :
    ∃ c t, intToChars i = c :: t ∧ (c = '-' ∨ isDigitChar c = true) := by
  unfold intToChars
  split
  · exact ⟨'-', _, rfl, Or.inl rfl⟩
  · obtain ⟨c, t, hct⟩ : ∃ c t, natToChars i.toNat = c :: t := by
      cases hx : natToChars i.toNat with
      | nil => exact absurd hx (natToChars_ne_nil _)
      | cons a b => exact ⟨a, b, rfl⟩
    exact ⟨c, t, hct, Or.inr (natToChars_all_digits _ c (by rw [hct]; simp))⟩

theorem num_head_props {c : Char} (h : c = '-' ∨ isDigitChar c = true) :
    isJsonWs c = false ∧ ¬ c = 'n' ∧ ¬ c = 't' ∧ ¬ c = 'f' ∧ ¬ c = '"' ∧
      ¬ c = '[' ∧ ¬ c = lbrace := by
  have hn : c.toNat = 45 ∨ (48 ≤ c.toNat ∧ c.toNat ≤ 57) := by
    rcases h with h | h
    · subst h; left; decide
    · right
      simpa [isDigitChar, Bool.and_eq_true, decide_eq_true_eq] using h
  refine ⟨?_, ?_, ?_, ?_, ?_, ?_, ?_⟩
  · rw [Bool.eq_false_iff]
    intro hw
    simp only [isJsonWs, Bool.or_eq_true, decide_eq_true_eq] at hw
    omega
  · intro he; rw [char_eq_iff] at he
    have : ('n' : Char).toNat = 110 := by decide
    omega
  · intro he; rw [char_eq_iff] at he
    have : ('t' : Char).toNat = 116 := by decide
    omega
  · intro he; rw [char_eq_iff] at he
    have : ('f' : Char).toNat = 102 := by decide
    omega
  · intro he; rw [char_eq_iff] at he
    have : ('"' : Char).toNat = 34 := by decide
    omega
  · intro he; rw [char_eq_iff] at he
    have : ('[' : Char).toNat = 91 := by decide
    omega
  · intro he; rw [char_eq_iff] at he
    have : lbrace.toNat = 123 := by decide
    omega

theorem stringifyList_cons_ex (v : Json) (tl : JsonList) :
    ∃ u, stringifyList (.cons v tl) = stringify v ++ u := by
  cases tl with
  | nil => exact ⟨[], by simp [stringifyList]⟩
  | cons w tl2 => exact ⟨',' :: stringifyList (.cons w tl2), rfl⟩

theorem stringifyMembers_cons_ex (k : Str) (v : Json) (tl : JsonMembers) :
    ∃ u, stringifyMembers (.cons k v tl) = '"' :: u := by
  cases tl with
  | nil =>
    refine ⟨(k.map escapeChar).flatten ++ '"' :: ':' :: stringify v, ?_⟩
    show quoteStr k ++ ':' :: stringify v = _
    simp [quoteStr, List.cons_append, List.append_assoc]
  | cons k2 w tl2 =>
    refine ⟨(k.map escapeChar).flatten ++ '"' :: ':' ::
      (stringify v ++ ',' :: stringifyMembers (.cons k2 w tl2)), ?_⟩
    show quoteStr k ++ ':' :: stringify v ++ ',' :: stringifyMembers (.cons k2 w tl2) = _
    simp [quoteStr, List.cons_append, List.append_assoc]

/-- Triple round-trip induction over fuel: printed values, array element lists
and object member lists all parse back to themselves. -/
theorem parse_print_aux : ∀ fuel : Nat,
    (∀ (v : Json) (rest : Str), sizeJ v ≤ fuel → SafeRest rest →
      parseValue fuel (stringify v ++ rest) = some (v, rest)) ∧
    (∀ (v : Json) (tl : JsonList) (rest : Str), sizeL (.cons v tl) ≤ fuel →
      parseElems fuel (stringifyList (.cons v tl) ++ ']' :: rest) = some (.cons v tl, rest)) ∧
    (∀ (k : Str) (v : Json) (tl : JsonMembers) (rest : Str), sizeM (.cons k v tl) ≤ fuel →
      parseMembers fuel (stringifyMembers (.cons k v tl) ++ rbrace :: rest) =
        some (.cons k v tl, rest)) := by
  intro fuel
  induction fuel with
  | zero =>
    refine ⟨?_, ?_, ?_⟩
    · intro v rest hs _
      have := sizeJ_pos v
      omega
    · intro v tl rest hs
      simp only [sizeL] at hs
      omega
    · intro k v tl rest hs
      simp only [sizeM] at hs
      omega
  | succ fuel ih =>
    obtain ⟨ihP, ihQ, ihR⟩ := ih
    refine ⟨?_, ?_, ?_⟩
    · intro v rest hs hrest
      cases v with
      | null =>
        have h : skipWs (stringify Json.null ++ rest) = 'n' :: (cs "ull" ++ rest) :=
          skipWs_cons_not_ws (by decide) _
        rw [pv_null h, expectChars_self, Option.map_some']
      | bool b =>
        cases b with
        | true =>
          have h : skipWs (stringify (Json.bool true) ++ rest) = 't' :: (cs "rue" ++ rest) :=
            skipWs_cons_not_ws (by decide) _
          rw [pv_true h, expectChars_self, Option.map_some']
        | false =>
          have h : skipWs (stringify (Json.bool false) ++ rest) = 'f' :: (cs "alse" ++ rest) :=
            skipWs_cons_not_ws (by decide) _
          rw [pv_false h, expectChars_self, Option.map_some']
      | num n =>
        obtain ⟨c, t, hct, hcd⟩ := intToChars_head n
        obtain ⟨hws, h1, h2, h3, h4, h5, h6⟩ := num_head_props hcd
        have h : skipWs (stringify (Json.num n) ++ rest) = c :: (t ++ rest) := by
          show skipWs (intToChars n ++ rest) = c :: (t ++ rest)
          rw [hct, List.cons_append]
          exact skipWs_cons_not_ws hws _
        rw [pv_num h h1 h2 h3 h4 h5 h6 hcd, ← List.cons_append, ← hct,
          parseNumber_print hrest, Option.map_some']
      | str s =>
        have heq : stringify (Json.str s) ++ rest =
            '"' :: ((s.map escapeChar).flatten ++ '"' :: rest) := by
          show quoteStr s ++ rest = _
          simp [quoteStr, List.cons_append, List.append_assoc]
        have h : skipWs (stringify (Json.str s) ++ rest) =
            '"' :: ((s.map escapeChar).flatten ++ '"' :: rest) := by
          rw [heq]
          exact skipWs_cons_not_ws (by decide) _
        have hb : parseStringBody (((s.map escapeChar).flatten ++ '"' :: rest).length + 1)
            ((s.map escapeChar).flatten ++ '"' :: rest) = some (s, rest) :=
          parseStringBody_print s _ rest (by
            have := length_le_flatten_escape s
            simp only [List.length_append, List.length_cons]
            omega)
        rw [pv_str h, hb, Option.map_some']
      | arr xs =>
        cases xs with
        | nil =>
          have h1 : skipWs (stringify (Json.arr JsonList.nil) ++ rest) = '[' :: (']' :: rest) :=
            skipWs_cons_not_ws (by decide) _
          have h2 : skipWs (']' :: rest) = ']' :: rest := skipWs_cons_not_ws (by decide) _
          rw [pv_arr_empty h1 h2]
        | cons w tl =>
          obtain ⟨u, hu⟩ := stringifyList_cons_ex w tl
          obtain ⟨c, t, hct, hws, hne, _⟩ := stringify_head w
          have hr : stringifyList (JsonList.cons w tl) ++ ']' :: rest =
              c :: (t ++ (u ++ ']' :: rest)) := by
            rw [hu, hct]
            simp [List.cons_append, List.append_assoc]
          have h1 : skipWs (stringify (Json.arr (JsonList.cons w tl)) ++ rest) =
              '[' :: (stringifyList (JsonList.cons w tl) ++ ']' :: rest) := by
            have heq : stringify (Json.arr (JsonList.cons w tl)) ++ rest =
                '[' :: (stringifyList (JsonList.cons w tl) ++ ']' :: rest) := by
              show ('[' :: (stringifyList (JsonList.cons w tl) ++ [']'])) ++ rest = _
              simp [List.cons_append, List.append_assoc]
            rw [heq]
            exact skipWs_cons_not_ws (by decide) _
          have h2 : skipWs (stringifyList (JsonList.cons w tl) ++ ']' :: rest) =
              c :: (t ++ (u ++ ']' :: rest)) := by
            rw [hr]
            exact skipWs_cons_not_ws hws _
          have hq := ihQ w tl rest (by simp only [sizeJ] at hs; omega)
          rw [pv_arr_cons h1 h2 hne, ← hr, hq, Option.map_some']
      | obj ms =>
        cases ms with
        | nil =>
          have h1 : skipWs (stringify (Json.obj JsonMembers.nil) ++ rest) =
              lbrace :: (rbrace :: rest) := skipWs_cons_not_ws (by decide) _
          have h2 : skipWs (rbrace :: rest) = rbrace :: rest := skipWs_cons_not_ws (by decide) _
          rw [pv_obj_empty h1 h2]
        | cons k w tl =>
          obtain ⟨u, hu⟩ := stringifyMembers_cons_ex k w tl
          have hr : stringifyMembers (JsonMembers.cons k w tl) ++ rbrace :: rest =
              '"' :: (u ++ rbrace :: rest) := by
            rw [hu, List.cons_append]
          have h1 : skipWs (stringify (Json.obj (JsonMembers.cons k w tl)) ++ rest) =
              lbrace :: (stringifyMembers (JsonMembers.cons k w tl) ++ rbrace :: rest) := by
            have heq : stringify (Json.obj (JsonMembers.cons k w tl)) ++ rest =
                lbrace :: (stringifyMembers (JsonMembers.cons k w tl) ++ rbrace :: rest) := by
              show (lbrace :: (stringifyMembers (JsonMembers.cons k w tl) ++ [rbrace])) ++
                rest = _
              simp [List.cons_append, List.append_assoc]
            rw [heq]
            exact skipWs_cons_not_ws (by decide) _
          have h2 : skipWs (stringifyMembers (JsonMembers.cons k w tl) ++ rbrace :: rest) =
              '"' :: (u ++ rbrace :: rest) := by
            rw [hr]
            exact skipWs_cons_not_ws (by decide) _
          have hq := ihR k w tl rest (by simp only [sizeJ] at hs; omega)
          rw [pv_obj_cons h1 h2 (by decide), ← hr, hq, Option.map_some']
    · intro v tl rest hs
      have hsv : sizeJ v ≤ fuel := by simp only [sizeL] at hs; omega
      cases tl with
      | nil =>
        have hpv : parseValue fuel (stringify v ++ ']' :: rest) = some (v, ']' :: rest) :=
          ihP v (']' :: rest) hsv (safeRest_cons (by decide) _)
        have h2 : skipWs (']' :: rest) = ']' :: rest := skipWs_cons_not_ws (by decide) _
        have heq : stringifyList (JsonList.cons v JsonList.nil) ++ ']' :: rest =
            stringify v ++ ']' :: rest := rfl
        rw [heq, pe_close hpv h2]
      | cons w tl2 =>
        have hq := ihQ w tl2 rest (by simp only [sizeL] at hs ⊢; omega)
        have hpv : parseValue fuel
            (stringify v ++ ',' :: (stringifyList (JsonList.cons w tl2) ++ ']' :: rest)) =
            some (v, ',' :: (stringifyList (JsonList.cons w tl2) ++ ']' :: rest)) :=
          ihP v _ hsv (safeRest_cons (by decide) _)
        have h2 : skipWs (',' :: (stringifyList (JsonList.cons w tl2) ++ ']' :: rest)) =
            ',' :: (stringifyList (JsonList.cons w tl2) ++ ']' :: rest) :=
          skipWs_cons_not_ws (by decide) _
        have heq : stringifyList (JsonList.cons v (JsonList.cons w tl2)) ++ ']' :: rest =
            stringify v ++ ',' :: (stringifyList (JsonList.cons w tl2) ++ ']' :: rest) := by
          show (stringify v ++ ',' :: stringifyList (JsonList.cons w tl2)) ++ ']' :: rest = _
          simp [List.cons_append, List.append_assoc]
        rw [heq, pe_comma hpv h2, hq, Option.map_some']
    · intro k v tl rest hs
      have hsv : sizeJ v ≤ fuel := by simp only [sizeM] at hs; omega
      cases tl with
      | nil =>
        have heq : stringifyMembers (JsonMembers.cons k v JsonMembers.nil) ++ rbrace :: rest =
            '"' :: ((k.map escapeChar).flatten ++
              '"' :: (':' :: (stringify v ++ rbrace :: rest))) := by
          show (quoteStr k ++ ':' :: stringify v) ++ rbrace :: rest = _
          simp [quoteStr, List.cons_append, List.append_assoc]
        have h1 : skipWs (stringifyMembers (JsonMembers.cons k v JsonMembers.nil) ++
            rbrace :: rest) = '"' :: ((k.map escapeChar).flatten ++
              '"' :: (':' :: (stringify v ++ rbrace :: rest))) := by
          rw [heq]
          exact skipWs_cons_not_ws (by decide) _
        have hk : parseStringBody
            (((k.map escapeChar).flatten ++
              '"' :: (':' :: (stringify v ++ rbrace :: rest))).length + 1)
            ((k.map escapeChar).flatten ++
              '"' :: (':' :: (stringify v ++ rbrace :: rest))) =
            some (k, ':' :: (stringify v ++ rbrace :: rest)) :=
          parseStringBody_print k _ _ (by
            have := length_le_flatten_escape k
            simp only [List.length_append, List.length_cons]
            omega)
        have h2 : skipWs (':' :: (stringify v ++ rbrace :: rest)) =
            ':' :: (stringify v ++ rbrace :: rest) := skipWs_cons_not_ws (by decide) _
        have hv : parseValue fuel (stringify v ++ rbrace :: rest) =
            some (v, rbrace :: rest) := ihP v _ hsv (safeRest_cons (by decide) _)
        have h3 : skipWs (rbrace :: rest) = rbrace :: rest := skipWs_cons_not_ws (by decide) _
        rw [pm_step h1 hk h2 hv h3, if_neg (by decide : ¬ rbrace = ','), if_pos rfl]
      | cons k2 w tl2 =>
        have hR := ihR k2 w tl2 rest (by simp only [sizeM] at hs ⊢; omega)
        have heq : stringifyMembers (JsonMembers.cons k v (JsonMembers.cons k2 w tl2)) ++
            rbrace :: rest =
            '"' :: ((k.map escapeChar).flatten ++ '"' :: (':' :: (stringify v ++
              ',' :: (stringifyMembers (JsonMembers.cons k2 w tl2) ++ rbrace :: rest)))) := by
          show (quoteStr k ++ ':' :: stringify v ++
            ',' :: stringifyMembers (JsonMembers.cons k2 w tl2)) ++ rbrace :: rest = _
          simp [quoteStr, List.cons_append, List.append_assoc]
        have h1 : skipWs (stringifyMembers (JsonMembers.cons k v
            (JsonMembers.cons k2 w tl2)) ++ rbrace :: rest) =
            '"' :: ((k.map escapeChar).flatten ++ '"' :: (':' :: (stringify v ++
              ',' :: (stringifyMembers (JsonMembers.cons k2 w tl2) ++ rbrace :: rest)))) := by
          rw [heq]
          exact skipWs_cons_not_ws (by decide) _
        have hk : parseStringBody
            (((k.map escapeChar).flatten ++ '"' :: (':' :: (stringify v ++
              ',' :: (stringifyMembers (JsonMembers.cons k2 w tl2) ++
                rbrace :: rest)))).length + 1)
            ((k.map escapeChar).flatten ++ '"' :: (':' :: (stringify v ++
              ',' :: (stringifyMembers (JsonMembers.cons k2 w tl2) ++ rbrace :: rest)))) =
            some (k, ':' :: (stringify v ++
              ',' :: (stringifyMembers (JsonMembers.cons k2 w tl2) ++ rbrace :: rest))) :=
          parseStringBody_print k _ _ (by
            have := length_le_flatten_escape k
            simp only [List.length_append, List.length_cons]
            omega)
        have h2 : skipWs (':' :: (stringify v ++
            ',' :: (stringifyMembers (JsonMembers.cons k2 w tl2) ++ rbrace :: rest))) =
            ':' :: (stringify v ++
              ',' :: (stringifyMembers (JsonMembers.cons k2 w tl2) ++ rbrace :: rest)) :=
          skipWs_cons_not_ws (by decide) _
        have hv : parseValue fuel (stringify v ++
            ',' :: (stringifyMembers (JsonMembers.cons k2 w tl2) ++ rbrace :: rest)) =
            some (v, ',' :: (stringifyMembers (JsonMembers.cons k2 w tl2) ++
              rbrace :: rest)) := ihP v _ hsv (safeRest_cons (by decide) _)
        have h3 : skipWs (',' :: (stringifyMembers (JsonMembers.cons k2 w tl2) ++
            rbrace :: rest)) = ',' :: (stringifyMembers (JsonMembers.cons k2 w tl2) ++
              rbrace :: rest) := skipWs_cons_not_ws (by decide) _
        rw [pm_step h1 hk h2 hv h3, if_pos rfl, hR, Option.map_some']

/-- `JSON.parse (JSON.stringify v)` recovers `v` for every modelled JSON value. -/
theorem jsonParse_stringify (v : Json) : jsonParse (stringify v) = some v := by
  unfold jsonParse
  have h := (parse_print_aux ((stringify v).length + 1)).1 v []
    (by have := sizeJ_le v; omega) safeRest_nil
  rw [List.append_nil] at h
  rw [h]
  rfl

-- ── Evaluation sanity checks ─────────────────────────

example :
    jsonParse (stringify (Json.obj (JsonMembers.cons (cs "id") (Json.str (cs "ch_ab"))
      (JsonMembers.cons (cs "n") (Json.num (-12)) JsonMembers.nil)))) =
    some (Json.obj (JsonMembers.cons (cs "id") (Json.str (cs "ch_ab"))
      (JsonMembers.cons (cs "n") (Json.num (-12)) JsonMembers.nil))) := by rfl

example : jsonParse (stringify (Json.str [Char.ofNat 7, '"', backslash, 'x'])) =
    some (Json.str [Char.ofNat 7, '"', backslash, 'x']) := by rfl

example : jsonParse (cs "  [1, true, null, \"a\"] ") =
    some (Json.arr (JsonList.cons (Json.num 1) (JsonList.cons (Json.bool true)
      (JsonList.cons Json.null (JsonList.cons (Json.str (cs "a")) JsonList.nil))))) := by rfl

example : jsonParse (cs "01") = none := by rfl
example : jsonParse (cs "1.5") = none := by rfl
example : jsonParse (cs "[1") = none := by rfl

-- ── Byte encodings: hex, base64url, UTF-8 ────────────

/-- Lowercase hex digit or decimal digit (the alphabet of `digest('hex')`). -/
def isHexLowerChar (c : Char) : Bool :=
  (48 ≤ c.toNat && c.toNat ≤ 57) || (97 ≤ c.toNat && c.toNat ≤ 102)

/-- The signature shape check `/^[0-9a-f]{64}$/`. -/
def isHex64 (s : Str) : Bool := s.length = 64 && s.all isHexLowerChar

/-- `Buffer.from(s, 'hex')`: consume hex digit pairs into bytes. -/
def hexToBytes : Str → List Nat
  | c1 :: c2 :: rest => (((hexVal c1).getD 0) * 16 + (hexVal c2).getD 0) :: hexToBytes rest
  | _ => []

/-- UTF-8 encoding of one Unicode scalar value. -/
def utf8EncodeChar (c : Char) : List Nat :=
  if c.toNat < 128 then [c.toNat]
  else if c.toNat < 2048 then [192 + c.toNat / 64, 128 + c.toNat % 64]
  else if c.toNat < 65536 then
    [224 + c.toNat / 4096, 128 + c.toNat / 64 % 64, 128 + c.toNat % 64]
  else
    [240 + c.toNat / 262144, 128 + c.toNat / 4096 % 64, 128 + c.toNat / 64 % 64,
     128 + c.toNat % 64]

/-- `Buffer.from(string)`: UTF-8 bytes of a string. -/
def utf8Encode (s : Str) : List Nat := (s.map utf8EncodeChar).flatten

def replacementChar : Char := Char.ofNat 65533

/-- `buffer.toString()`: lenient UTF-8 decoding (fueled; ill-formed sequences
decode to replacement data rather than throwing, as Node buffers do). -/
def utf8Decode : Nat → List Nat → Str
  | 0, _ => []
  | _ + 1, [] => []
  | fuel + 1, b :: rest =>
    if b < 128 then Char.ofNat b :: utf8Decode fuel rest
    else if 192 ≤ b ∧ b < 224 then
      match rest with
      | b2 :: rest2 => Char.ofNat ((b - 192) * 64 + (b2 - 128)) :: utf8Decode fuel rest2
      | [] => [replacementChar]
    else if 224 ≤ b ∧ b < 240 then
      match rest with
      | b2 :: b3 :: rest3 =>
          Char.ofNat ((b - 224) * 4096 + (b2 - 128) * 64 + (b3 - 128)) :: utf8Decode fuel rest3
      | _ => [replacementChar]
    else if 240 ≤ b ∧ b < 248 then
      match rest with
      | b2 :: b3 :: b4 :: rest4 =>
          Char.ofNat ((b - 240) * 262144 + (b2 - 128) * 4096 + (b3 - 128) * 64 +
            (b4 - 128)) :: utf8Decode fuel rest4
      | _ => [replacementChar]
    else replacementChar :: utf8Decode fuel rest

def utf8DecodeAll (bs : List Nat) : Str := utf8Decode (bs.length + 1) bs

/-- The base64url alphabet. -/
def b64Char (n : Nat) : Char :=
  if n < 26 then Char.ofNat (65 + n)
  else if n < 52 then Char.ofNat (97 + (n - 26))
  else if n < 62 then Char.ofNat (48 + (n - 52))
  else if n = 62 then '-'
  else '_'

def b64Val (c : Char) : Option Nat :=
  if 65 ≤ c.toNat ∧ c.toNat ≤ 90 then some (c.toNat - 65)
  else if 97 ≤ c.toNat ∧ c.toNat ≤ 122 then some (c.toNat - 97 + 26)
  else if 48 ≤ c.toNat ∧ c.toNat ≤ 57 then some (c.toNat - 48 + 52)
  else if c = '-' then some 62
  else if c = '_' then some 63
  else none

def b64v (c : Char) : Nat := (b64Val c).getD 0

/-- `buffer.toString('base64url')`: unpadded base64url of a byte list. -/
def b64encode : List Nat → Str
  | [] => []
  | [a] => [b64Char (a / 4), b64Char (a % 4 * 16)]
  | [a, b] => [b64Char (a / 4), b64Char (a % 4 * 16 + b / 16), b64Char (b % 16 * 4)]
  | a :: b :: c :: rest =>
      b64Char (a / 4) :: b64Char (a % 4 * 16 + b / 16) ::
        b64Char (b % 16 * 4 + c / 64) :: b64Char (c % 64) :: b64encode rest

/-- `Buffer.from(s, 'base64url')` on well-formed input. -/
def b64decode : Str → List Nat
  | [] => []
  | [_] => []
  | [c1, c2] => [b64v c1 * 4 + b64v c2 / 16]
  | [c1, c2, c3] => [b64v c1 * 4 + b64v c2 / 16, b64v c2 % 16 * 16 + b64v c3 / 4]
  | c1 :: c2 :: c3 :: c4 :: rest =>
      (b64v c1 * 4 + b64v c2 / 16) :: (b64v c2 % 16 * 16 + b64v c3 / 4) ::
        (b64v c3 % 4 * 64 + b64v c4) :: b64decode rest

-- ── Token codec ──────────────────────────────────────

def isDotChar (c : Char) : Bool := c = '.'

/-- `token.slice(0, idx)` and `token.slice(idx + 1)` for
`idx = token.lastIndexOf('.')`. -/
def splitLastDot (t : Str) : Str × Str :=
  (((t.reverse.dropWhile (fun c => !isDotChar c)).drop 1).reverse,
   (t.reverse.takeWhile (fun c => !isDotChar c)).reverse)

/-- The typed decode failures of `decodeToken`: `Invalid token format`,
`Invalid token signature`, the `JSON.parse` `SyntaxError`, and `internal` for a
`crypto.timingSafeEqual` length-mismatch `TypeError` (proven unreachable). -/
inductive DecodeErr
  | malformed
  | badSignature
  | corruptPayload
  | internal
deriving DecidableEq

/-- The `node:crypto` primitives used by the library, abstracted: an
HMAC-SHA256 hex signer (always 64 lowercase hex chars) and SHA-256 hex digest. -/
structure Crypto where
  hmacSign : Str → Str → Str
  sha256Hex : Str → Str
  hmac_hex : ∀ d s, isHex64 (hmacSign d s) = true

/-- `hashAnswer(answer)`. -/
def hashAnswer (C : Crypto) (answer : Str) : Str := C.sha256Hex answer

/-- `encodeToken(payload, secret)`: `base64url(JSON)` dot hex HMAC signature. -/
def encodeToken (C : Crypto) (payload : Json) (secret : Str) : Str :=
  b64encode (utf8Encode (stringify payload)) ++
    '.' :: C.hmacSign (b64encode (utf8Encode (stringify payload))) secret

/-- `decodeToken(token, secret)`; each `throw` is a typed error value. -/
def decodeToken (C : Crypto) (token : Str) (secret : Str) : Except DecodeErr Json :=
  if token = [] ∨ token.contains '.' = false then .error .malformed
  else if isHex64 (splitLastDot token).2 = false then .error .badSignature
  else if (hexToBytes (splitLastDot token).2).length ≠
      (hexToBytes (C.hmacSign (splitLastDot token).1 secret)).length then .error .internal
  else if hexToBytes (splitLastDot token).2 =
      hexToBytes (C.hmacSign (splitLastDot token).1 secret) then
    match jsonParse (utf8DecodeAll (b64decode (splitLastDot token).1)) with
    | some v => .ok v
    | none => .error .corruptPayload
  else .error .badSignature

-- ── Encoding round-trip lemmas ───────────────────────

theorem b64v_b64Char : ∀ n, n < 64 → b64v (b64Char n) = n := by decide

theorem b64decode_encode : ∀ bs : List Nat, (∀ x ∈ bs, x < 256) →
    b64decode (b64encode bs) = bs
  | [], _ => rfl
  | [a], h => by
    have ha : a < 256 := h a (by simp)
    simp only [b64encode, b64decode]
    rw [b64v_b64Char _ (by omega), b64v_b64Char _ (by omega),
      show a / 4 * 4 + a % 4 * 16 / 16 = a from by omega]
  | [a, b], h => by
    have ha : a < 256 := h a (by simp)
    have hb : b < 256 := h b (by simp)
    simp only [b64encode, b64decode]
    rw [b64v_b64Char _ (by omega), b64v_b64Char _ (by omega), b64v_b64Char _ (by omega),
      show a / 4 * 4 + (a % 4 * 16 + b / 16) / 16 = a from by omega,
      show (a % 4 * 16 + b / 16) % 16 * 16 + b % 16 * 4 / 4 = b from by omega]
  | a :: b :: c :: rest, h => by
    have ha : a < 256 := h a (by simp)
    have hb : b < 256 := h b (by simp)
    have hc : c < 256 := h c (by simp)
    have ih := b64decode_encode rest (fun x hx => h x (by simp [hx]))
    simp only [b64encode, b64decode]
    rw [b64v_b64Char _ (by omega), b64v_b64Char _ (by omega), b64v_b64Char _ (by omega),
      b64v_b64Char _ (by omega), ih,
      show a / 4 * 4 + (a % 4 * 16 + b / 16) / 16 = a from by omega,
      show (a % 4 * 16 + b / 16) % 16 * 16 + (b % 16 * 4 + c / 64) / 4 = b from by omega,
      show (b % 16 * 4 + c / 64) % 4 * 64 + c % 64 = c from by omega]

theorem utf8EncodeChar_length (c : Char) : 1 ≤ (utf8EncodeChar c).length := by
  unfold utf8EncodeChar
  split_ifs <;> simp

theorem length_le_utf8Encode (s : Str) : s.length ≤ (utf8Encode s).length := by
  induction s with
  | nil => simp [utf8Encode]
  | cons c t ih =>
    simp only [utf8Encode, List.map_cons, List.flatten_cons, List.length_append,
      List.length_cons] at ih ⊢
    have := utf8EncodeChar_length c
    omega

theorem utf8Encode_lt (s : Str) : ∀ x ∈ utf8Encode s, x < 256 := by
  intro x hx
  simp only [utf8Encode, List.mem_flatten] at hx
  obtain ⟨l, hl, hxl⟩ := hx
  obtain ⟨c, -, rfl⟩ := List.mem_map.mp hl
  have hv := char_toNat_lt c
  unfold utf8EncodeChar at hxl
  split_ifs at hxl with h1 h2 h3
  · simp only [List.mem_singleton] at hxl
    omega
  · simp only [List.mem_cons, List.not_mem_nil, or_false] at hxl
    rcases hxl with rfl | rfl <;> omega
  · simp only [List.mem_cons, List.not_mem_nil, or_false] at hxl
    rcases hxl with rfl | rfl | rfl <;> omega
  · simp only [List.mem_cons, List.not_mem_nil, or_false] at hxl
    rcases hxl with rfl | rfl | rfl | rfl <;> omega

theorem utf8Decode_print (s : Str) : ∀ fuel, s.length < fuel →
    utf8Decode fuel (utf8Encode s) = s := by
  induction s with
  | nil =>
    intro fuel hf
    obtain ⟨f, rfl⟩ : ∃ f, fuel = f + 1 := ⟨fuel - 1, by omega⟩
    rfl
  | cons c t ih =>
    intro fuel hf
    obtain ⟨f, rfl⟩ : ∃ f, fuel = f + 1 := ⟨fuel - 1, by omega⟩
    have hf2 : t.length < f := by
      simp only [List.length_cons] at hf
      omega
    have hv := char_toNat_lt c
    have henc : utf8Encode (c :: t) = utf8EncodeChar c ++ utf8Encode t := by
      simp [utf8Encode]
    by_cases h1 : c.toNat < 128
    · have hec : utf8EncodeChar c = [c.toNat] := by
        unfold utf8EncodeChar
        rw [if_pos h1]
      rw [henc, hec, List.cons_append, List.nil_append]
      simp only [utf8Decode]
      rw [if_pos h1, ofNat_toNat_char, ih f hf2]
    · by_cases h2 : c.toNat < 2048
      · have hec : utf8EncodeChar c = [192 + c.toNat / 64, 128 + c.toNat % 64] := by
          unfold utf8EncodeChar
          rw [if_neg h1, if_pos h2]
        rw [henc, hec, List.cons_append, List.cons_append, List.nil_append]
        simp only [utf8Decode]
        rw [if_neg (by omega : ¬ (192 + c.toNat / 64 < 128)),
          if_pos (by omega : 192 ≤ 192 + c.toNat / 64 ∧ 192 + c.toNat / 64 < 224)]
        show Char.ofNat ((192 + c.toNat / 64 - 192) * 64 + (128 + c.toNat % 64 - 128)) ::
          utf8Decode f (utf8Encode t) = c :: t
        rw [show (192 + c.toNat / 64 - 192) * 64 + (128 + c.toNat % 64 - 128) = c.toNat
            from by omega,
          ofNat_toNat_char, ih f hf2]
      · by_cases h3 : c.toNat < 65536
        · have hec : utf8EncodeChar c =
              [224 + c.toNat / 4096, 128 + c.toNat / 64 % 64, 128 + c.toNat % 64] := by
            unfold utf8EncodeChar
            rw [if_neg h1, if_neg h2, if_pos h3]
          rw [henc, hec, List.cons_append, List.cons_append, List.cons_append,
            List.nil_append]
          simp only [utf8Decode]
          rw [if_neg (by omega : ¬ (224 + c.toNat / 4096 < 128)),
            if_neg (by omega : ¬ (192 ≤ 224 + c.toNat / 4096 ∧ 224 + c.toNat / 4096 < 224)),
            if_pos (by omega : 224 ≤ 224 + c.toNat / 4096 ∧ 224 + c.toNat / 4096 < 240)]
          show Char.ofNat ((224 + c.toNat / 4096 - 224) * 4096 +
            (128 + c.toNat / 64 % 64 - 128) * 64 + (128 + c.toNat % 64 - 128)) ::
            utf8Decode f (utf8Encode t) = c :: t
          rw [show (224 + c.toNat / 4096 - 224) * 4096 +
              (128 + c.toNat / 64 % 64 - 128) * 64 + (128 + c.toNat % 64 - 128) = c.toNat
              from by omega,
            ofNat_toNat_char, ih f hf2]
        · have hec : utf8EncodeChar c =
              [240 + c.toNat / 262144, 128 + c.toNat / 4096 % 64,
               128 + c.toNat / 64 % 64, 128 + c.toNat % 64] := by
            unfold utf8EncodeChar
            rw [if_neg h1, if_neg h2, if_neg h3]
          rw [henc, hec, List.cons_append, List.cons_append, List.cons_append,
            List.cons_append, List.nil_append]
          simp only [utf8Decode]
          rw [if_neg (by omega : ¬ (240 + c.toNat / 262144 < 128)),
            if_neg (by omega :
              ¬ (192 ≤ 240 + c.toNat / 262144 ∧ 240 + c.toNat / 262144 < 224)),
            if_neg (by omega :
              ¬ (224 ≤ 240 + c.toNat / 262144 ∧ 240 + c.toNat / 262144 < 240)),
            if_pos (by omega : 240 ≤ 240 + c.toNat / 262144 ∧ 240 + c.toNat / 262144 < 248)]
          show Char.ofNat ((240 + c.toNat / 262144 - 240) * 262144 +
            (128 + c.toNat / 4096 % 64 - 128) * 4096 +
            (128 + c.toNat / 64 % 64 - 128) * 64 + (128 + c.toNat % 64 - 128)) ::
            utf8Decode f (utf8Encode t) = c :: t
          rw [show (240 + c.toNat / 262144 - 240) * 262144 +
              (128 + c.toNat / 4096 % 64 - 128) * 4096 +
              (128 + c.toNat / 64 % 64 - 128) * 64 + (128 + c.toNat % 64 - 128) = c.toNat
              from by omega,
            ofNat_toNat_char, ih f hf2]

theorem utf8DecodeAll_encode (s : Str) : utf8DecodeAll (utf8Encode s) = s :=
  utf8Decode_print s _ (by have := length_le_utf8Encode s; omega)

-- ── Token codec round trip ───────────────────────────

theorem hexToBytes_length : ∀ s : Str, (hexToBytes s).length = s.length / 2
  | [] => rfl
  | [_] => by simp [hexToBytes]
  | _ :: _ :: rest => by
    have ih := hexToBytes_length rest
    simp only [hexToBytes, List.length_cons]
    omega

theorem isHex64_no_dot {s : Str} (h : isHex64 s = true) :
    ∀ c ∈ s, isDotChar c = false := by
  intro c hc
  simp only [isHex64, Bool.and_eq_true, List.all_eq_true] at h
  have hx := h.2 c hc
  simp only [isHexLowerChar, Bool.or_eq_true, Bool.and_eq_true, decide_eq_true_eq] at hx
  simp only [isDotChar, decide_eq_false_iff_not]
  intro he
  rw [char_eq_iff] at he
  have : ('.' : Char).toNat = 46 := by decide
  omega

theorem splitLastDot_append {data sig : Str} (h : ∀ c ∈ sig, isDotChar c = false) :
    splitLastDot (data ++ '.' :: sig) = (data, sig) := by
  have hall : ∀ c ∈ sig.reverse, (!isDotChar c) = true := by
    intro c hc
    rw [h c (List.mem_reverse.mp hc)]
    rfl
  have hhead : ∀ c, ('.' :: data.reverse).head? = some c → (!isDotChar c) = false := by
    intro c hc
    simp only [List.head?_cons, Option.some.injEq] at hc
    subst hc
    decide
  have hrev : (data ++ '.' :: sig).reverse = sig.reverse ++ '.' :: data.reverse := by
    rw [List.reverse_append, List.reverse_cons, List.append_assoc, List.singleton_append]
  unfold splitLastDot
  rw [hrev, takeWhile_append_all hall hhead, dropWhile_append_all hall hhead,
    List.reverse_reverse]
  simp

theorem contains_dot_of_append (data sig : Str) :
    (data ++ '.' :: sig).contains '.' = true :=
  List.elem_iff.mpr (by simp)

/-- Decoding an encoded token recovers the payload (the signature check passes,
the length branch is unreachable, and the base64url/UTF-8/JSON layers all
round-trip). -/
theorem decodeToken_encodeToken (C : Crypto) (p : Json) (secret : Str) :
    decodeToken C (encodeToken C p secret) secret = .ok p := by
  have hhex : isHex64 (C.hmacSign (b64encode (utf8Encode (stringify p))) secret) = true :=
    C.hmac_hex _ _
  have hsplit : splitLastDot (encodeToken C p secret) =
      (b64encode (utf8Encode (stringify p)),
       C.hmacSign (b64encode (utf8Encode (stringify p))) secret) :=
    splitLastDot_append (isHex64_no_dot hhex)
  unfold decodeToken
  rw [if_neg, hsplit]
  · simp only
    rw [if_neg (by rw [hhex]; simp), if_neg (fun hne => hne rfl), if_pos trivial,
      b64decode_encode _ (utf8Encode_lt _), utf8DecodeAll_encode, jsonParse_stringify]
  · rintro (he | he)
    · exact absurd he (by simp [encodeToken])
    · rw [show encodeToken C p secret = b64encode (utf8Encode (stringify p)) ++
        '.' :: C.hmacSign (b64encode (utf8Encode (stringify p))) secret from rfl,
        contains_dot_of_append] at he
      exact Bool.true_eq_false.mp he

-- ── AgentChallenge instance model ────────────────────

/-- The configuration held by an `AgentChallenge` instance. -/
structure Config where
  secret : Str
  ttl : Int
  persistent : Bool

/-- The constructor: `if (!secret || secret.length < 8) throw ...`; note that
`ttl` is stored unvalidated.  `none` models the thrown error. -/
def mkAgentChallenge (secret : Str) (ttl : Int) (persistent : Bool) : Option Config :=
  if secret = [] ∨ secret.length < 8 then none
  else some ⟨secret, ttl, persistent⟩

/-- Object property lookup as `JSON.parse` materialises objects: for duplicate
keys the last occurrence wins. -/
def lookupMember : JsonMembers → Str → Option Json
  | .nil, _ => none
  | .cons k v tl, key =>
    match lookupMember tl key with
    | some w => some w
    | none => if k = key then some v else none

/-- `payload.x` on a non-null value: objects look up the key, every other
value yields `undefined` (`none`). -/
def jsField : Json → Str → Option Json
  | .obj ms, key => lookupMember ms key
  | _, _ => none

def isNullJson : Json → Bool
  | .null => true
  | _ => false

mutual
/-- `Array.prototype.join(',')` element stringification (`null` renders
empty). -/
def joinElemStr : Json → Str
  | .null => []
  | .bool true => cs "true"
  | .bool false => cs "false"
  | .num n => intToChars n
  | .str s => s
  | .arr xs => arrJoinAux xs
  | .obj _ => cs "[object Object]"

def arrJoinAux : JsonList → Str
  | .nil => []
  | .cons v .nil => joinElemStr v
  | .cons v (.cons w tl) => joinElemStr v ++ ',' :: arrJoinAux (.cons w tl)
end

/-- `Number(string)` restricted to optionally-signed decimal integers
(`none` is NaN; fraction/exponent/hex forms are NaN in this model — the
library's payloads only carry integers). -/
def strToNum (s : Str) : Option Int :=
  match jsTrim s with
  | [] => some 0
  | c :: m =>
    if c = '-' then
      if m ≠ [] ∧ m.all isDigitChar then
        some (-(m.foldl (fun a d => 10 * a + digitVal d) 0 : Nat) : Int) else none
    else if c = '+' then
      if m ≠ [] ∧ m.all isDigitChar then
        some ((m.foldl (fun a d => 10 * a + digitVal d) 0 : Nat) : Int) else none
    else if (c :: m).all isDigitChar then
      some (((c :: m).foldl (fun a d => 10 * a + digitVal d) 0 : Nat) : Int)
    else none

/-- `Number(v)` for a JSON value (`none` is NaN). -/
def jsToNumber : Json → Option Int
  | .null => some 0
  | .bool true => some 1
  | .bool false => some 0
  | .num n => some n
  | .str s => strToNum s
  | .arr xs => strToNum (arrJoinAux xs)
  | .obj _ => none

/-- `now > payload.expires_at` under JS coercion: comparisons against
`undefined` or NaN are false. -/
def jsGtNum (now : Int) (x : Option Json) : Bool :=
  match x with
  | none => false
  | some v =>
    match jsToNumber v with
    | none => false
    | some e => now > e

/-- `stringValue === field` (strict equality of a string against a property
value: true only for an equal string). -/
def jsStrEq (s : Str) : Option Json → Bool
  | some (.str t) => s = t
  | _ => false

/-- The shape of a `verify` result (`elapsed_ms` omitted: timing only). -/
structure VerifyRes where
  valid : Bool
  error : Option Str
  challenge_type : Option Json

/-- `e.message` for each typed decode failure (the `JSON.parse` SyntaxError
message is engine-specific; a fixed stand-in is used). -/
def decodeErrMsg : DecodeErr → Str
  | .malformed => cs "Invalid token format"
  | .badSignature => cs "Invalid token signature"
  | .corruptPayload => cs "Unexpected token"
  | .internal => cs "internal"

/-- `AgentChallenge.verify(token, answer)`.  Only `decodeToken` runs inside
the `try`; the subsequent `payload.expires_at` access throws (`.error ()`)
when the decoded payload is `null`. -/
def verify (C : Crypto) (cfg : Config) (now : Int) (token : Str) (answer : Option Str) :
    Except Unit VerifyRes :=
  match decodeToken C token cfg.secret with
  | .error e => .ok ⟨false, some (decodeErrMsg e), none⟩
  | .ok payload =>
    if isNullJson payload then .error ()
    else if jsGtNum now (jsField payload (cs "expires_at")) then
      .ok ⟨false, some (cs "Challenge expired"), none⟩
    else if normalizeAnswerVal answer = [] then
      .ok ⟨false, some (cs "Empty answer"), none⟩
    else if jsStrEq (hashAnswer C (normalizeAnswerVal answer))
        (jsField payload (cs "answer_hash")) then
      .ok ⟨true, none, jsField payload (cs "type")⟩
    else .ok ⟨false, some (cs "Incorrect answer"), jsField payload (cs "type")⟩

/-- The challenge payload built by `_buildChallenge` (one clock reading
`now`; `id` stands for `'ch_' + randomBytes(12).toString('hex')`). -/
def challengePayload (C : Crypto) (cfg : Config) (now : Int) (id : Str) (typeName : Str)
    (answer : Str) : Json :=
  Json.obj (.cons (cs "id") (.str id)
    (.cons (cs "type") (.str typeName)
      (.cons (cs "answer_hash") (.str (hashAnswer C answer))
        (.cons (cs "created_at") (.num now)
          (.cons (cs "expires_at") (.num (now + cfg.ttl)) .nil)))))

structure Challenge where
  id : Str
  prompt : Str
  token : Str
  expires_at : Int
  challenge_type : Str

/-- `AgentChallenge._buildChallenge(typeName, prompt, answer)`. -/
def buildChallenge (C : Crypto) (cfg : Config) (now : Int) (id : Str) (typeName : Str)
    (prompt : Str) (answer : Str) : Challenge :=
  ⟨id, prompt, encodeToken C (challengePayload C cfg now id typeName answer) cfg.secret,
   now + cfg.ttl, typeName⟩

/-- The agent-token payload built by `createToken` (`id` stands for the random
hex; no `expires_at` and no `answer_hash`). -/
def agentTokenPayload (now : Int) (id : Str) (agentId : Option Str) : Json :=
  Json.obj (.cons (cs "id") (.str (cs "at_" ++ id))
    (.cons (cs "type") (.str (cs "agent_token"))
      (.cons (cs "created_at") (.num now)
        (match agentId with
         | some a => .cons (cs "agent_id") (.str a) .nil
         | none => .nil))))

/-- `AgentChallenge.createToken(agentId)`. -/
def createToken (C : Crypto) (cfg : Config) (now : Int) (id : Str)
    (agentId : Option Str) : Str :=
  encodeToken C (agentTokenPayload now id agentId) cfg.secret

/-- `AgentChallenge.verifyToken(token)`: the whole body is inside
`try/catch`, so a `null` payload's property-access TypeError is caught and
yields `false`. -/
def verifyToken (C : Crypto) (cfg : Config) (token : Str) : Bool :=
  match decodeToken C token cfg.secret with
  | .error _ => false
  | .ok payload =>
    if isNullJson payload then false
    else jsStrEq (cs "agent_token") (jsField payload (cs "type"))

/-- The shape of a gate result (`expires_in` and `instructions` omitted). -/
structure GateRes where
  status : Str
  error : Option Str
  token : Option Str
  prompt : Option Str
  challenge_token : Option Str

/-- JS truthiness of an optional string argument: absent (or a non-string
such as `null`) and the empty string are falsy. -/
def truthyStr : Option Str → Bool
  | none => false
  | some s => !s.isEmpty

/-- `AgentChallenge.gateSync({token, challengeToken, answer})`.  `fresh` is
the challenge `this.createSync()` would mint in Mode 3 and `newId` the random
id a Mode-2 success would use for `createToken`; a `verify` throw
propagates. -/
def gateSync (C : Crypto) (cfg : Config) (now : Int) (fresh : Challenge) (newId : Str)
    (token challengeToken answer : Option Str) : Except Unit GateRes :=
  if truthyStr token then
    if !cfg.persistent then
      .ok ⟨cs "error", some (cs "Persistent tokens are disabled"), none, none, none⟩
    else if verifyToken C cfg (token.getD []) then
      .ok ⟨cs "authenticated", none, none, none, none⟩
    else .ok ⟨cs "error", some (cs "Invalid token"), none, none, none⟩
  else if truthyStr challengeToken && truthyStr answer then
    match verify C cfg now (challengeToken.getD []) answer with
    | .error e => .error e
    | .ok r =>
      if r.valid then
        if cfg.persistent then
          .ok ⟨cs "authenticated", none, some (createToken C cfg now newId none), none, none⟩
        else .ok ⟨cs "authenticated", none, none, none, none⟩
      else .ok ⟨cs "error", some (r.error.getD (cs "Incorrect answer")), none, none, none⟩
  else
    .ok ⟨cs "challenge_required", none, none, some fresh.prompt, some fresh.token⟩

/-- `AgentChallenge.gate(...)`: the async variant's mode logic is identical
(`await this.create()` supplies the fresh challenge). -/
def gate (C : Crypto) (cfg : Config) (now : Int) (fresh : Challenge) (newId : Str)
    (token challengeToken answer : Option Str) : Except Unit GateRes :=
  if truthyStr token then
    if !cfg.persistent then
      .ok ⟨cs "error", some (cs "Persistent tokens are disabled"), none, none, none⟩
    else if verifyToken C cfg (token.getD []) then
      .ok ⟨cs "authenticated", none, none, none, none⟩
    else .ok ⟨cs "error", some (cs "Invalid token"), none, none, none⟩
  else if truthyStr challengeToken && truthyStr answer then
    match verify C cfg now (challengeToken.getD []) answer with
    | .error e => .error e
    | .ok r =>
      if r.valid then
        if cfg.persistent then
          .ok ⟨cs "authenticated", none, some (createToken C cfg now newId none), none, none⟩
        else .ok ⟨cs "authenticated", none, none, none, none⟩
      else .ok ⟨cs "error", some (r.error.getD (cs "Incorrect answer")), none, none, none⟩
  else
    .ok ⟨cs "challenge_required", none, none, some fresh.prompt, some fresh.token⟩

-- ── Challenge generators: transform / chained_transform ──

def isUpperVowel (c : Char) : Bool := (cs "AEIOU").contains c

def swapCaseChar (c : Char) : Char :=
  if 65 ≤ c.toNat ∧ c.toNat ≤ 90 then Char.ofNat (c.toNat + 32)
  else if 97 ≤ c.toNat ∧ c.toNat ≤ 122 then Char.ofNat (c.toNat - 32)
  else c

/-- The random draws one call of `CHALLENGE_TYPES.transform` makes:
`variant` indexes `['remove_vowels', 'remove_consonants', 'first_letters',
'last_letters', 'swap_case']`; `word` and `words` are the sampled inputs. -/
structure TransformSample where
  variant : Nat
  word : Str
  words : List Str

/-- `CHALLENGE_TYPES.transform()` over a stream of samples, returning the
canonical answer.  The `remove_consonants` branch retries by a bare recursive
call (`return CHALLENGE_TYPES.transform()`), modelled by fuel; `none` means
the recursion is still running when the fuel runs out. -/
def transform (samples : Nat → TransformSample) : Nat → Nat → Option Str
  | 0, _ => none
  | fuel + 1, i =>
    let s := samples i
    if s.variant = 0 then some (lowerStr (s.word.filter (fun c => !isUpperVowel c)))
    else if s.variant = 1 then
      if s.word.filter isUpperVowel = [] then transform samples fuel (i + 1)
      else some (lowerStr (s.word.filter isUpperVowel))
    else if s.variant = 2 then
      some (lowerStr ((s.words.map (fun w => w.take 1)).flatten))
    else if s.variant = 3 then
      some (lowerStr ((s.words.map (fun w => w.drop (w.length - 1))).flatten))
    else some (lowerStr (s.word.map swapCaseChar))

def rot13Char (c : Char) : Char :=
  if 65 ≤ c.toNat ∧ c.toNat ≤ 90 then Char.ofNat ((c.toNat - 65 + 13) % 26 + 65)
  else if 97 ≤ c.toNat ∧ c.toNat ≤ 122 then Char.ofNat ((c.toNat - 97 + 13) % 26 + 97)
  else c

def rot13Str (s : Str) : Str := s.map rot13Char

def revStr (s : Str) : Str := s.reverse

def isVowelSetChar (c : Char) : Bool := (cs "AEIOUaeiou").contains c

def isConsonantSetChar (c : Char) : Bool :=
  (cs "BCDFGHJKLMNPQRSTVWXYZbcdfghjklmnpqrstvwxyz").contains c

/-- `[...s].filter((_, i) => i % 2 === 0).join('')`. -/
def everyOther : Str → Str
  | [] => []
  | [c] => [c]
  | c :: _ :: rest => c :: everyOther rest

/-- The ten op chains of `CHAINED_OPS`. -/
def chainedOps : Nat → List (Str → Str)
  | 0 => [revStr, rot13Str]
  | 1 => [rot13Str, revStr]
  | 2 => [revStr, fun s => s.filter (fun c => !isVowelSetChar c)]
  | 3 => [everyOther, revStr]
  | 4 => [fun s => s.filter (fun c => !isVowelSetChar c), revStr]
  | 5 => [fun s => s.map swapCaseChar, rot13Str]
  | 6 => [revStr, everyOther]
  | 7 => [rot13Str, fun s => s.filter (fun c => !isConsonantSetChar c)]
  | 8 => [fun s => s.filter (fun c => !isVowelSetChar c), rot13Str]
  | _ => [revStr, fun s => s.map swapCaseChar, everyOther]

/-- `for (const op of chain.ops) result = op(result)`. -/
def applyChain (ops : List (Str → Str)) (w : Str) : Str :=
  ops.foldl (fun s op => op s) w

/-- One attempt of `chained_transform` per sample: the sampled word and the
picked chain index. -/
structure ChainedSample where
  word : Str
  chain : Nat

/-- The `for (let attempt = 0; attempt < 10; attempt++)` loop, with the
remaining attempt budget as the first argument. -/
def chainedTry (samples : Nat → ChainedSample) : Nat → Nat → Option Str
  | 0, _ => none
  | rem + 1, i =>
    let s := samples i
    let result := applyChain (chainedOps s.chain) s.word
    if result = [] then chainedTry samples rem (i + 1)
    else some (lowerStr result)

/-- `CHALLENGE_TYPES.chained_transform()`: ten bounded attempts, then the
reverse-plus-ROT13 fallback on a fresh 8-letter word. -/
def chained_transform (samples : Nat → ChainedSample) (fallbackWord : Str) : Str :=
  match chainedTry samples 10 0 with
  | some a => a
  | none => lowerStr (rot13Str (revStr fallbackWord))

-- ── Challenge generators: pattern ────────────────────

/-- The JS `isPrime` trial-division loop (`i = 5; while (i*i <= n) ... i += 6`),
fueled (the loop runs at most `n` iterations). -/
def isPrimeLoop (n : Nat) : Nat → Nat → Bool
  | 0, _ => true
  | fuel + 1, i =>
    if i * i ≤ n then
      (if n % i = 0 ∨ n % (i + 2) = 0 then false else isPrimeLoop n fuel (i + 6))
    else true

/-- The JS `isPrime`. -/
def isPrime (n : Nat) : Bool :=
  if n < 2 then false
  else if n < 4 then true
  else if n % 2 = 0 ∨ n % 3 = 0 then false
  else isPrimeLoop n n 5

theorem isPrimeLoop_true {n : Nat} (hnd : ∀ d, 2 ≤ d → d < n → n % d ≠ 0) :
    ∀ fuel i, 3 ≤ i → isPrimeLoop n fuel i = true := by
  intro fuel
  induction fuel with
  | zero => intro i _; rfl
  | succ f ih =>
    intro i hi
    unfold isPrimeLoop
    by_cases hle : i * i ≤ n
    · rw [if_pos hle]
      have hin : i < n := by nlinarith
      have hi2n : i + 2 < n := by nlinarith
      rw [if_neg, ih (i + 6) (by omega)]
      rintro (h | h)
      · exact hnd i (by omega) hin h
      · exact hnd (i + 2) (by omega) hi2n h
    · rw [if_neg hle]

theorem isPrime_of_prime {p : Nat} (hp : p.Prime) : isPrime p = true := by
  have h2 := hp.two_le
  unfold isPrime
  rw [if_neg (by omega)]
  by_cases h4 : p < 4
  · rw [if_pos h4]
  · rw [if_neg h4, if_neg, isPrimeLoop_true _ p 5 (by omega)]
    · intro d h2d hdn hmod
      rcases (Nat.Prime.eq_one_or_self_of_dvd hp d (Nat.dvd_of_mod_eq_zero hmod)) with h | h
      · omega
      · omega
    · rintro (h | h)
      · have := Nat.dvd_of_mod_eq_zero h
        rcases (Nat.Prime.eq_one_or_self_of_dvd hp 2 this) with h1 | h1 <;> omega
      · have := Nat.dvd_of_mod_eq_zero h
        rcases (Nat.Prime.eq_one_or_self_of_dvd hp 3 this) with h1 | h1 <;> omega

theorem nextPrime_exists (n : Nat) : ∃ m, n < m ∧ isPrime m = true := by
  obtain ⟨p, hle, hp⟩ := Nat.exists_infinite_primes (n + 1)
  exact ⟨p, by omega, isPrime_of_prime hp⟩

/-- `nextPrime(n)`: `let c = n + 1; while (!isPrime(c)) c++;` — the least
number above `n` the JS `isPrime` accepts. -/
def nextPrime (n : Nat) : Nat := Nat.find (nextPrime_exists n)

/-- `pattern` variant `add`: `display[i] = start + step * i`,
`answer = display[4] + step`. -/
def patternAdd (start step : Int) : List Int × Int :=
  let display : List Int := [start + step * 0, start + step * 1, start + step * 2,
    start + step * 3, start + step * 4]
  (display, display.getD 4 0 + step)

/-- `pattern` variant `multiply`: `display[i] = base ** (se + i)`,
`answer = base ** (se + 5)`. -/
def patternMultiply (base : Int) (se : Nat) : List Int × Int :=
  let display : List Int := [base ^ (se + 0), base ^ (se + 1), base ^ (se + 2),
    base ^ (se + 3), base ^ (se + 4)]
  (display, base ^ (se + 5))

/-- `pattern` variant `squares`: `display[i] = (sn + i) ** 2 + off`,
`answer = (sn + 5) ** 2 + off`. -/
def patternSquares (off sn : Int) : List Int × Int :=
  let display : List Int := [(sn + 0) ^ 2 + off, (sn + 1) ^ 2 + off, (sn + 2) ^ 2 + off,
    (sn + 3) ^ 2 + off, (sn + 4) ^ 2 + off]
  (display, (sn + 5) ^ 2 + off)

/-- The `triangular` push loop: `display.push(last + cs); cs += si`. -/
def triLoop (si : Int) : Nat → List Int × Int → List Int × Int
  | 0, st => st
  | j + 1, st => triLoop si j (st.1 ++ [st.1.getLast?.getD 0 + st.2], st.2 + si)

/-- `pattern` variant `triangular`: seeded `[start]` with increment starting
at `si` and growing by `si`; `answer = display[4] + cs`. -/
def patternTriangular (start si : Int) : List Int × Int :=
  let st := triLoop si 4 ([start], si)
  (st.1, st.1.getD 4 0 + st.2)

/-- The `add_growing` push loop: `display.push(last + is + i)`. -/
def growLoop (is_ : Int) : Nat → Int → List Int → List Int
  | 0, _, d => d
  | k + 1, i, d => growLoop is_ k (i + 1) (d ++ [d.getLast?.getD 0 + is_ + i])

/-- `pattern` variant `add_growing`: `answer = display[4] + is + 4`. -/
def patternAddGrowing (start is_ : Int) : List Int × Int :=
  let d := growLoop is_ 4 0 [start]
  (d, d.getD 4 0 + is_ + 4)

/-- The `fibonacci_like` push loop: `display.push(last + secondLast)`. -/
def fibLoop : Nat → List Int → List Int
  | 0, d => d
  | k + 1, d => fibLoop k (d ++ [d.getLast?.getD 0 + d.getD (d.length - 2) 0])

/-- `pattern` variant `fibonacci_like`: `answer = display[4] + display[3]`. -/
def patternFib (a b : Int) : List Int × Int :=
  let d := fibLoop 3 [a, b]
  (d, d.getD 4 0 + d.getD 3 0)

/-- `pattern` variant `triangular_numbers`:
`display[i] = (sn + i) * (sn + i + 1) / 2`, `answer = (sn + 5) * (sn + 6) / 2`. -/
def patternTriangularNumbers (sn : Nat) : List Nat × Nat :=
  let display : List Nat := [(sn + 0) * (sn + 1) / 2, (sn + 1) * (sn + 2) / 2,
    (sn + 2) * (sn + 3) / 2, (sn + 3) * (sn + 4) / 2, (sn + 4) * (sn + 5) / 2]
  (display, (sn + 5) * (sn + 6) / 2)

/-- The `primes` push loop: `display.push(nextPrime(last))`. -/
def primesLoop : Nat → List Nat → List Nat
  | 0, d => d
  | k + 1, d => primesLoop k (d ++ [nextPrime (d.getLast?.getD 0)])

attribute [irreducible] nextPrime

/-- `pattern` variant `primes`: `answer = nextPrime(display[4])`. -/
def patternPrimes (sp : Nat) : List Nat × Nat :=
  let d := primesLoop 4 [sp]
  (d, nextPrime (d.getD 4 0))

/-- `pattern` variant `decreasing`: `display[i] = start - step * i`,
`answer = display[4] - step`. -/
def patternDecreasing (start step : Int) : List Int × Int :=
  let display : List Int := [start - step * 0, start - step * 1, start - step * 2,
    start - step * 3, start - step * 4]
  (display, display.getD 4 0 - step)

-- ── The spec-side sequence rules for `pattern` ───────

def ruleAdd (start step : Int) (i : Nat) : Int := start + step * i

def ruleMultiply (base : Int) (se : Nat) (i : Nat) : Int := base ^ (se + i)

def ruleSquares (off sn : Int) (i : Nat) : Int := (sn + i) ^ 2 + off

def ruleTriangular (start si : Int) : Nat → Int
  | 0 => start
  | i + 1 => ruleTriangular start si i + si * (i + 1)

def ruleAddGrowing (start is_ : Int) : Nat → Int
  | 0 => start
  | i + 1 => ruleAddGrowing start is_ i + is_ + i

def ruleFib (a b : Int) : Nat → Int
  | 0 => a
  | 1 => b
  | i + 2 => ruleFib a b (i + 1) + ruleFib a b i

def ruleTriangularNumbers (sn : Nat) (i : Nat) : Nat := (sn + i) * (sn + i + 1) / 2

def rulePrimes (sp : Nat) : Nat → Nat
  | 0 => sp
  | i + 1 => nextPrime (rulePrimes sp i)

def ruleDecreasing (start step : Int) (i : Nat) : Int := start - step * i

example : normalizeAnswer (cs "  Hello ") = cs "hello" := by decide
example : normalizeAnswer (cs "\"NoHtYp\"") = cs "nohtyp" := by decide
example : normalizeAnswer (cs "1,2 ,  3") = cs "1, 2, 3" := by decide
example : normalizeAnswer (cs "a. !") = cs "a." := by decide
example : normalizeAnswer (cs "a.") = cs "a" := by decide
example : normalizeAnswer (cs "a., b,") = cs "a., b, " := by decide
example : normalizeAnswer (cs "a., b, ") = cs "a., b, " := by decide

-- ── Concrete crypto instance for witnesses ───────────

theorem hex64_replicate : isHex64 (List.replicate 64 'a') = true := by decide

/-- A concrete stand-in for the `node:crypto` primitives, used to instantiate
theorems at concrete inputs (a constant 64-hex signature and identity digest
satisfy every shape property the library relies on). -/
def toyCrypto : Crypto where
  hmacSign := fun _ _ => List.replicate 64 'a'
  sha256Hex := fun s => s
  hmac_hex := fun _ _ => hex64_replicate

def toyCfg : Config := ⟨cs "secret12", 300, true⟩

-- ── Claim C2 ─────────────────────────────────────────

/-- C2: for every JSON-serializable payload `p` and every secret `s`,
`decodeToken(encodeToken(p, s), s)` succeeds and returns a payload equal to
`p` (base64url JSON plus HMAC-SHA256 hex signature round-trips). -/
theorem c2_codec_round_trip (C : Crypto) (p : Json) (secret : Str) :
    decodeToken C (encodeToken C p secret) secret = Except.ok p :=
  decodeToken_encodeToken C p secret

-- ── Claim C7 ─────────────────────────────────────────

/-- C7 counterexample: the constructor does not validate `ttl`; `ttl = 0`
is accepted and produces a challenge whose `expires_at` equals its
`created_at`, refuting the claimed invariant `ttl > 0`. -/
theorem c7_ttl_counterexample :
    mkAgentChallenge (cs "secret12") 0 true = some ⟨cs "secret12", 0, true⟩ ∧
    (buildChallenge toyCrypto ⟨cs "secret12", 0, true⟩ 1000 (cs "ch_1")
      (cs "reverse_string") (cs "p") (cs "a")).expires_at = 1000 :=
  ⟨rfl, rfl⟩

/-- C7 (amended): for every configuration the constructor accepts, a built
challenge satisfies `expires_at = created_at + ttl` with the configured `ttl`
and a single clock reading `now` — but `ttl > 0` is not guaranteed, since the
constructor never checks it. -/
theorem c7_expiry_invariant (C : Crypto) (secret : Str) (ttl : Int) (persistent : Bool)
    (cfg : Config) (h : mkAgentChallenge secret ttl persistent = some cfg)
    (now : Int) (id typeName prompt answer : Str) :
    (buildChallenge C cfg now id typeName prompt answer).expires_at = now + cfg.ttl ∧
    cfg.ttl = ttl ∧
    jsField (challengePayload C cfg now id typeName answer) (cs "created_at") =
      some (Json.num now) ∧
    jsField (challengePayload C cfg now id typeName answer) (cs "expires_at") =
      some (Json.num (now + cfg.ttl)) := by
  unfold mkAgentChallenge at h
  split at h
  · exact absurd h (by simp)
  · injection h with h2
    subst h2
    exact ⟨rfl, rfl, rfl, rfl⟩

theorem c7_expiry_invariant_witness :
    (buildChallenge toyCrypto toyCfg 1000 (cs "ch_1") (cs "reverse_string") (cs "p")
      (cs "a")).expires_at = 1000 + (300 : Int) ∧
    (300 : Int) = 300 ∧
    jsField (challengePayload toyCrypto toyCfg 1000 (cs "ch_1") (cs "reverse_string")
      (cs "a")) (cs "created_at") = some (Json.num 1000) ∧
    jsField (challengePayload toyCrypto toyCfg 1000 (cs "ch_1") (cs "reverse_string")
      (cs "a")) (cs "expires_at") = some (Json.num (1000 + 300)) :=
  c7_expiry_invariant toyCrypto (cs "secret12") 300 true toyCfg rfl 1000 (cs "ch_1")
    (cs "reverse_string") (cs "p") (cs "a")

-- ── Claim C5 ─────────────────────────────────────────

/-- C5: a token that decodes (valid signature) to a non-null payload whose
`expires_at` is strictly below the current time fails `verify` with the
`Challenge expired` error, for every submitted answer — the expiry check
precedes both the empty-answer check and the digest comparison. -/
theorem c5_expired (C : Crypto) (cfg : Config) (now : Int) (token : Str)
    (payload : Json) (e : Int)
    (hdec : decodeToken C token cfg.secret = Except.ok payload)
    (hnn : isNullJson payload = false)
    (hexp : jsField payload (cs "expires_at") = some (Json.num e))
    (hlt : e < now) (answer : Option Str) :
    verify C cfg now token answer =
      Except.ok ⟨false, some (cs "Challenge expired"), none⟩ := by
  unfold verify
  rw [hdec]
  simp only [hnn, Bool.false_eq_true, if_false]
  rw [if_pos]
  simp only [jsGtNum, hexp, jsToNumber]
  simpa using hlt

theorem c5_expired_witness :
    verify toyCrypto toyCfg 100
      (encodeToken toyCrypto (Json.obj (JsonMembers.cons (cs "expires_at") (Json.num 5)
        JsonMembers.nil)) (cs "secret12")) (some (cs "right answer")) =
      Except.ok ⟨false, some (cs "Challenge expired"), none⟩ :=
  c5_expired toyCrypto toyCfg 100 _
    (Json.obj (JsonMembers.cons (cs "expires_at") (Json.num 5) JsonMembers.nil)) 5
    (decodeToken_encodeToken toyCrypto _ _) rfl rfl (by decide) (some (cs "right answer"))

-- ── Claim C6 ─────────────────────────────────────────

/-- C6: the verifier never confuses the two token kinds: an agent token
(payload `type: 'agent_token'`, no `expires_at`/`answer_hash`) fails `verify`
for every answer, and a challenge token whose type is not `'agent_token'`
fails `verifyToken`. -/
theorem c6_kind_separation (C : Crypto) (cfg : Config) (now now2 : Int) (id : Str)
    (agentId : Option Str) (answer : Option Str)
    (chId typeName prompt chAnswer : Str) (hty : typeName ≠ cs "agent_token") :
    (∃ r : VerifyRes, verify C cfg now2 (createToken C cfg now id agentId) answer =
      Except.ok r ∧ r.valid = false) ∧
    verifyToken C cfg (buildChallenge C cfg now chId typeName prompt chAnswer).token =
      false := by
  constructor
  · unfold verify createToken
    rw [decodeToken_encodeToken]
    have hexp : jsField (agentTokenPayload now id agentId) (cs "expires_at") = none := by
      cases agentId <;> rfl
    have hah : jsField (agentTokenPayload now id agentId) (cs "answer_hash") = none := by
      cases agentId <;> rfl
    have hnull : isNullJson (agentTokenPayload now id agentId) = false := rfl
    simp only [hnull, Bool.false_eq_true, if_false, hexp, hah, jsGtNum, if_false]
    by_cases hna : normalizeAnswerVal answer = []
    · rw [if_pos hna]
      exact ⟨_, rfl, rfl⟩
    · rw [if_neg hna]
      simp only [jsStrEq]
      exact ⟨_, rfl, rfl⟩
  · unfold verifyToken buildChallenge
    rw [decodeToken_encodeToken]
    have hnull : isNullJson (challengePayload C cfg now chId typeName chAnswer) =
        false := rfl
    have hf : jsField (challengePayload C cfg now chId typeName chAnswer) (cs "type") =
        some (Json.str typeName) := rfl
    simp only [hnull, Bool.false_eq_true, if_false, hf, jsStrEq,
      decide_eq_false_iff_not]
    exact fun h => hty h.symm

theorem c6_kind_separation_witness :
    (∃ r : VerifyRes, verify toyCrypto toyCfg 7 (createToken toyCrypto toyCfg 3 (cs "aa")
      none) (some (cs "guess")) = Except.ok r ∧ r.valid = false) ∧
    verifyToken toyCrypto toyCfg (buildChallenge toyCrypto toyCfg 3 (cs "ch_1")
      (cs "reverse_string") (cs "p") (cs "nohtyp")).token = false :=
  c6_kind_separation toyCrypto toyCfg 3 7 (cs "aa") none (some (cs "guess")) (cs "ch_1")
    (cs "reverse_string") (cs "p") (cs "nohtyp") (by decide)

-- ── Claim C10 ────────────────────────────────────────

/-- C10: a gate call supplying a challenge token whose answer is missing,
null, or the empty string does not run verification and does not error: both
`gateSync` and `gate` fall through to Mode 3 and return `challenge_required`
with a fresh challenge, so an empty-string answer never reaches `verify`
through the gate. -/
theorem c10_gate_empty_answer (C : Crypto) (cfg : Config) (now : Int) (fresh : Challenge)
    (newId : Str) (challengeToken : Str) (answer : Option Str)
    (hans : answer = none ∨ answer = some []) :
    gateSync C cfg now fresh newId none (some challengeToken) answer =
      Except.ok ⟨cs "challenge_required", none, none, some fresh.prompt,
        some fresh.token⟩ ∧
    gate C cfg now fresh newId none (some challengeToken) answer =
      Except.ok ⟨cs "challenge_required", none, none, some fresh.prompt,
        some fresh.token⟩ := by
  rcases hans with rfl | rfl <;>
    simp [gateSync, gate, truthyStr]

theorem c10_gate_empty_answer_witness :
    gateSync toyCrypto toyCfg 0 ⟨cs "ch_1", cs "p", cs "tok", 300, cs "t"⟩ (cs "n") none
      (some (cs "chtok")) (some []) =
      Except.ok ⟨cs "challenge_required", none, none, some (cs "p"), some (cs "tok")⟩ ∧
    gate toyCrypto toyCfg 0 ⟨cs "ch_1", cs "p", cs "tok", 300, cs "t"⟩ (cs "n") none
      (some (cs "chtok")) (some []) =
      Except.ok ⟨cs "challenge_required", none, none, some (cs "p"), some (cs "tok")⟩ :=
  c10_gate_empty_answer toyCrypto toyCfg 0 ⟨cs "ch_1", cs "p", cs "tok", 300, cs "t"⟩
    (cs "n") (cs "chtok") (some []) (Or.inr rfl)

-- ── Claim C3 ─────────────────────────────────────────

/-- C3 counterexample: a correctly signed token whose payload is the JSON
value `null` decodes successfully, and `verify` then throws
(`payload.expires_at` is read outside the `try/catch`), so `verify` does not
return a `{valid: false, error}` result for every attacker-controlled
input. -/
theorem c3_null_payload_counterexample :
    verify toyCrypto toyCfg 0 (encodeToken toyCrypto Json.null toyCfg.secret)
      (some (cs "x")) = Except.error () := by
  unfold verify
  rw [decodeToken_encodeToken]
  rfl

/-- C3 (amended): for every token whose decoded payload is not JSON `null`,
`verify` returns a result rather than throwing; decoding never hits the
untyped `internal` branch; and the three malformed-input classes map to the
three typed failures (no separator → malformed token, non-hex or wrong-size
signature → invalid signature, non-JSON payload bytes → corrupt payload). -/
theorem c3_decode_typed (C : Crypto) (cfg : Config) (now : Int) (token : Str)
    (answer : Option Str)
    (hnn : decodeToken C token cfg.secret ≠ Except.ok Json.null) :
    (∃ r, verify C cfg now token answer = Except.ok r) ∧
    decodeToken C token cfg.secret ≠ Except.error DecodeErr.internal ∧
    (token.contains '.' = false →
      decodeToken C token cfg.secret = Except.error DecodeErr.malformed) ∧
    (∀ data sig, token = data ++ '.' :: sig → (∀ c ∈ sig, isDotChar c = false) →
      isHex64 sig = false →
      decodeToken C token cfg.secret = Except.error DecodeErr.badSignature) ∧
    (∀ data, token = data ++ '.' :: C.hmacSign data cfg.secret →
      jsonParse (utf8DecodeAll (b64decode data)) = none →
      decodeToken C token cfg.secret = Except.error DecodeErr.corruptPayload) := by
  refine ⟨?_, ?_, ?_, ?_, ?_⟩
  · unfold verify
    cases hd : decodeToken C token cfg.secret with
    | error e => exact ⟨_, rfl⟩
    | ok payload =>
      have hpn : isNullJson payload = false := by
        cases payload with
        | null => exact absurd hd hnn
        | bool b => rfl
        | num n => rfl
        | str s => rfl
        | arr xs => rfl
        | obj ms => rfl
      simp only [hpn, Bool.false_eq_true, if_false]
      split_ifs <;> exact ⟨_, rfl⟩
  · intro he
    unfold decodeToken at he
    split_ifs at he with h1 h2 h3
    · exact DecodeErr.noConfusion (Except.error.inj he)
    · exact DecodeErr.noConfusion (Except.error.inj he)
    · have h2t : isHex64 (splitLastDot token).2 = true := by simpa using h2
      have hs : (splitLastDot token).2.length = 64 := by
        simp only [isHex64, Bool.and_eq_true, decide_eq_true_eq] at h2t
        exact h2t.1
      have he2 : isHex64 (C.hmacSign (splitLastDot token).1 cfg.secret) = true :=
        C.hmac_hex _ _
      simp only [isHex64, Bool.and_eq_true, decide_eq_true_eq] at he2
      rw [hexToBytes_length, hexToBytes_length, hs, he2.1] at h3
      exact h3 rfl
    · split at he
      · exact Except.noConfusion he
      · exact DecodeErr.noConfusion (Except.error.inj he)
    · exact DecodeErr.noConfusion (Except.error.inj he)
  · intro hc
    unfold decodeToken
    rw [if_pos (Or.inr hc)]
  · intro data sig htok hnd hhex
    subst htok
    unfold decodeToken
    rw [if_neg, splitLastDot_append hnd]
    · rw [if_pos hhex]
    · rintro (he | he)
      · exact absurd he (by simp)
      · rw [contains_dot_of_append] at he
        exact Bool.true_eq_false.mp he
  · intro data htok hjson
    subst htok
    have hhex : isHex64 (C.hmacSign data cfg.secret) = true := C.hmac_hex _ _
    unfold decodeToken
    rw [if_neg, splitLastDot_append (isHex64_no_dot hhex)]
    · simp only
      rw [if_neg (by rw [hhex]; simp), if_neg (fun hne => hne rfl), if_pos trivial, hjson]
    · rintro (he | he)
      · exact absurd he (by simp)
      · rw [contains_dot_of_append] at he
        exact Bool.true_eq_false.mp he

theorem c3_decode_typed_witness :
    ∃ r, verify toyCrypto toyCfg 0 (cs "no-separator-here") none = Except.ok r :=
  (c3_decode_typed toyCrypto toyCfg 0 (cs "no-separator-here") none
    (by rw [show decodeToken toyCrypto (cs "no-separator-here") toyCfg.secret =
        Except.error DecodeErr.malformed from rfl]
        intro h
        exact Except.noConfusion h)).1

-- ── Claim C9 ─────────────────────────────────────────

/-- C9: for every variant of the `pattern` generator, the canonical answer is
the sixth term of exactly the closed form or recurrence that produced the five
displayed terms. -/
theorem c9_pattern_consistency :
    (∀ start step : Int, (patternAdd start step).1 =
        [ruleAdd start step 0, ruleAdd start step 1, ruleAdd start step 2,
         ruleAdd start step 3, ruleAdd start step 4] ∧
      (patternAdd start step).2 = ruleAdd start step 5) ∧
    (∀ (base : Int) (se : Nat), (patternMultiply base se).1 =
        [ruleMultiply base se 0, ruleMultiply base se 1, ruleMultiply base se 2,
         ruleMultiply base se 3, ruleMultiply base se 4] ∧
      (patternMultiply base se).2 = ruleMultiply base se 5) ∧
    (∀ off sn : Int, (patternSquares off sn).1 =
        [ruleSquares off sn 0, ruleSquares off sn 1, ruleSquares off sn 2,
         ruleSquares off sn 3, ruleSquares off sn 4] ∧
      (patternSquares off sn).2 = ruleSquares off sn 5) ∧
    (∀ start si : Int, (patternTriangular start si).1 =
        [ruleTriangular start si 0, ruleTriangular start si 1, ruleTriangular start si 2,
         ruleTriangular start si 3, ruleTriangular start si 4] ∧
      (patternTriangular start si).2 = ruleTriangular start si 5) ∧
    (∀ start is_ : Int, (patternAddGrowing start is_).1 =
        [ruleAddGrowing start is_ 0, ruleAddGrowing start is_ 1, ruleAddGrowing start is_ 2,
         ruleAddGrowing start is_ 3, ruleAddGrowing start is_ 4] ∧
      (patternAddGrowing start is_).2 = ruleAddGrowing start is_ 5) ∧
    (∀ a b : Int, (patternFib a b).1 =
        [ruleFib a b 0, ruleFib a b 1, ruleFib a b 2, ruleFib a b 3, ruleFib a b 4] ∧
      (patternFib a b).2 = ruleFib a b 5) ∧
    (∀ sn : Nat, (patternTriangularNumbers sn).1 =
        [ruleTriangularNumbers sn 0, ruleTriangularNumbers sn 1,
         ruleTriangularNumbers sn 2, ruleTriangularNumbers sn 3,
         ruleTriangularNumbers sn 4] ∧
      (patternTriangularNumbers sn).2 = ruleTriangularNumbers sn 5) ∧
    (∀ sp : Nat, (patternPrimes sp).1 =
        [rulePrimes sp 0, rulePrimes sp 1, rulePrimes sp 2, rulePrimes sp 3,
         rulePrimes sp 4] ∧
      (patternPrimes sp).2 = rulePrimes sp 5) ∧
    (∀ start step : Int, (patternDecreasing start step).1 =
        [ruleDecreasing start step 0, ruleDecreasing start step 1,
         ruleDecreasing start step 2, ruleDecreasing start step 3,
         ruleDecreasing start step 4] ∧
      (patternDecreasing start step).2 = ruleDecreasing start step 5) := by
  refine ⟨?_, ?_, ?_, ?_, ?_, ?_, ?_, ?_, ?_⟩
  · intro start step
    refine ⟨rfl, ?_⟩
    show start + step * 4 + step = ruleAdd start step 5
    simp only [ruleAdd]
    push_cast
    ring
  · intro base se
    exact ⟨rfl, rfl⟩
  · intro off sn
    exact ⟨rfl, rfl⟩
  · intro start si
    constructor
    · show [start, start + si, start + si + (si + si),
        start + si + (si + si) + (si + si + si),
        start + si + (si + si) + (si + si + si) + (si + si + si + si)] = _
      simp only [ruleTriangular, List.cons.injEq, and_true]
      refine ⟨by ring, by push_cast; ring, by push_cast; ring, by push_cast; ring,
        by push_cast; ring⟩
    · show start + si + (si + si) + (si + si + si) + (si + si + si + si) +
        (si + si + si + si + si) = _
      simp only [ruleTriangular]
      push_cast
      ring
  · intro start is_
    constructor
    · show [start, start + is_ + 0, start + is_ + 0 + is_ + 1,
        start + is_ + 0 + is_ + 1 + is_ + 2,
        start + is_ + 0 + is_ + 1 + is_ + 2 + is_ + 3] = _
      simp only [ruleAddGrowing, List.cons.injEq, and_true]
      refine ⟨by ring, by push_cast; ring, by push_cast; ring, by push_cast; ring,
        by push_cast; ring⟩
    · show start + is_ + 0 + is_ + 1 + is_ + 2 + is_ + 3 + is_ + 4 = _
      simp only [ruleAddGrowing]
      push_cast
      ring
  · intro a b
    exact ⟨rfl, rfl⟩
  · intro sn
    exact ⟨rfl, rfl⟩
  · intro sp
    exact ⟨rfl, rfl⟩
  · intro start step
    refine ⟨rfl, ?_⟩
    show start - step * 4 - step = ruleDecreasing start step 5
    simp only [ruleDecreasing]
    push_cast
    ring

-- ── Claim C8 ─────────────────────────────────────────

/-- A sample stream on which every draw picks `remove_consonants` with a
vowel-free word. -/
def badTransformSamples : Nat → TransformSample := fun _ => ⟨1, cs "BCDFG", []⟩

theorem transform_bad_none : ∀ fuel i, transform badTransformSamples fuel i = none := by
  intro fuel
  induction fuel with
  | zero => intro i; rfl
  | succ f ih =>
    intro i
    show transform badTransformSamples (f + 1) i = none
    simp only [transform, badTransformSamples]
    norm_num
    exact ih (i + 1)

/-- C8 counterexample: `transform`'s `remove_consonants` retry is a bare
recursive call with no attempt counter: on a sample stream of vowel-free
words the recursion never returns, however much fuel it is given — in
particular eleven samples (more than the spec's ten attempts) do not
suffice and there is no fallback. -/
theorem c8_transform_unbounded_counterexample :
    (∀ fuel i, transform badTransformSamples fuel i = none) ∧
    transform badTransformSamples 11 0 = none :=
  ⟨transform_bad_none, transform_bad_none 11 0⟩

/-- `chainedTry` inspects only the samples of the attempts it is given. -/
theorem chainedTry_congr (s1 s2 : Nat → ChainedSample) :
    ∀ rem i, (∀ j, i ≤ j → j < i + rem → s1 j = s2 j) →
      chainedTry s1 rem i = chainedTry s2 rem i := by
  intro rem
  induction rem with
  | zero => intro i _; rfl
  | succ r ih =>
    intro i h
    show chainedTry s1 (r + 1) i = chainedTry s2 (r + 1) i
    simp only [chainedTry]
    rw [h i (by omega) (by omega)]
    split
    · exact ih (i + 1) (fun j hj1 hj2 => h j (by omega) (by omega))
    · rfl

theorem chainedTry_some_ne (samples : Nat → ChainedSample) :
    ∀ rem i a, chainedTry samples rem i = some a → a ≠ [] := by
  intro rem
  induction rem with
  | zero => intro i a h; exact absurd h (by simp [chainedTry])
  | succ r ih =>
    intro i a h
    simp only [chainedTry] at h
    split at h
    · exact ih (i + 1) a h
    · rename_i hne
      rw [Option.some.injEq] at h
      subst h
      intro he
      apply hne
      have := congrArg List.length he
      simp only [lowerStr, List.length_map, List.length_nil] at this
      exact List.eq_nil_of_length_eq_zero this

/-- C8 (amended): `chained_transform` does use a bounded attempt counter —
its result depends only on the first ten samples — and its fallback answer
(reverse then ROT13 of a fresh nonempty word) is a nonempty, guaranteed-valid
answer, so that generator always terminates with a usable challenge. -/
theorem c8_chained_bounded (samples : Nat → ChainedSample) (w : Str) (hw : w ≠ []) :
    chained_transform samples w ≠ [] ∧
    ∀ samples2 : Nat → ChainedSample, (∀ i < 10, samples i = samples2 i) →
      chained_transform samples w = chained_transform samples2 w := by
  constructor
  · unfold chained_transform
    cases hc : chainedTry samples 10 0 with
    | some a => exact chainedTry_some_ne samples 10 0 a hc
    | none =>
      intro he
      apply hw
      have := congrArg List.length he
      simp only [lowerStr, rot13Str, revStr, List.length_map, List.length_reverse,
        List.length_nil] at this
      exact List.eq_nil_of_length_eq_zero this
  · intro samples2 h
    unfold chained_transform
    rw [chainedTry_congr samples samples2 10 0 (fun j _ hj2 => h j (by omega))]

theorem c8_chained_bounded_witness :
    chained_transform (fun _ => ⟨cs "HELLO", 0⟩) (cs "ABCDEFGH") ≠ [] :=
  (c8_chained_bounded (fun _ => ⟨cs "HELLO", 0⟩) (cs "ABCDEFGH") (by decide)).1

-- ── Claim C1 ─────────────────────────────────────────

/-- A rendering of the canonical answer `a`: the same string up to letter
case, surrounding whitespace, and one optional wrapping pair of matching
quotes. -/
def Rendering (r a : Str) : Prop :=
  ∃ ws1 ws2 core, AllWs ws1 ∧ AllWs ws2 ∧ lowerStr core = a ∧
    (r = ws1 ++ (core ++ ws2) ∨
     ∃ q, isQuoteChar q = true ∧ r = ws1 ++ ((q :: (core ++ [q])) ++ ws2))

/-- A fixed point of `normalizeAnswer` is lowercase-stable. -/
theorem lowerStr_fix {a : Str} (hfix : normalizeAnswer a = a) : lowerStr a = a := by
  have := lowerStr_normalizeAnswer a
  rwa [hfix] at this

/-- A fixed point of `normalizeAnswer` never trips the quote-stripping guard
after trimming (otherwise normalization would strictly decrease its quote
count). -/
theorem quoteCond_trim_fix {a : Str} (hfix : normalizeAnswer a = a) :
    quoteCond (jsTrim a) = false := by
  by_contra h
  rw [Bool.not_eq_false] at h
  apply normalizeAnswer_ne_of_quoteCond (x := a) _ hfix
  rwa [lowerStr_jsTrim, lowerStr_fix hfix]

/-- Both branches of a rendering normalise, through trim + lowercase + quote
stripping, to `jsTrim a`. -/
theorem stageQuote_rendering {r a : Str} (hfix : normalizeAnswer a = a)
    (hr : Rendering r a) : stageQuote (lowerStr (jsTrim r)) = jsTrim a := by
  obtain ⟨ws1, ws2, core, hw1, hw2, hcore, hcase⟩ := hr
  rcases hcase with rfl | ⟨q, hq, rfl⟩
  · rw [jsTrim_ws_append hw1, jsTrim_append_ws hw2, lowerStr_jsTrim, hcore,
      stageQuote_eq_self (quoteCond_trim_fix hfix)]
  · obtain ⟨hqws, -, -, hqup, -⟩ := isQuoteChar_props hq
    rw [jsTrim_ws_append hw1, jsTrim_append_ws hw2]
    have htr : jsTrim (q :: (core ++ [q])) = q :: (core ++ [q]) := by
      apply jsTrim_eq_self
      · intro c hc
        simp only [List.head?_cons, Option.some.injEq] at hc
        subst hc
        exact hqws
      · intro c hc
        rw [show q :: (core ++ [q]) = (q :: core) ++ [q] from (List.cons_append _ _ _).symm,
          List.getLast?_concat] at hc
        simp only [Option.some.injEq] at hc
        subst hc
        exact hqws
    rw [htr]
    have hlq : lowerStr (q :: (core ++ [q])) = q :: (a ++ [q]) := by
      simp only [lowerStr, List.map_cons, List.map_append, List.map_nil]
      rw [jsToLower_of_not_upper hqup]
      rw [show List.map jsToLower core = lowerStr core from rfl, hcore]
    rw [hlq]
    have hqtrue : quoteCond (q :: (a ++ [q])) = true :=
      quoteCond_iff.mpr ⟨q, a, hq, (List.cons_append _ _ _).symm⟩
    unfold stageQuote
    rw [if_pos hqtrue,
      show dropEnds (q :: (a ++ [q])) = a from by
        unfold dropEnds
        rw [List.drop_succ_cons, List.drop_zero, List.dropLast_concat]]

/-- Normalising any rendering of a `normalizeAnswer` fixed point recovers the
fixed point itself. -/
theorem normalizeAnswer_rendering {r a : Str} (hfix : normalizeAnswer a = a)
    (hr : Rendering r a) : normalizeAnswer r = a := by
  conv_rhs => rw [← hfix]
  rw [normalizeAnswer_eq_normTail, normalizeAnswer_eq_normTail (l := a)]
  rw [stageQuote_rendering hfix hr, lowerStr_jsTrim, lowerStr_fix hfix,
    stageQuote_eq_self (quoteCond_trim_fix hfix)]

/-- C1: a challenge built from a static generator under an accepted
configuration verifies with `valid = true` and the challenge's type for every
rendering of the canonical answer (case, surrounding whitespace, a single
wrapping quote pair) submitted before `expires_at` — provided, as the spec
notes, that the canonical answer is a fixed point of `normalizeAnswer`, since
the stored digest is computed from the raw generator answer. -/
theorem c1_static_challenge_verifies (C : Crypto) (secret : Str) (ttl : Int)
    (persistent : Bool) (cfg : Config)
    (hcfg : mkAgentChallenge secret ttl persistent = some cfg)
    (now now2 : Int) (hbefore : now2 ≤ now + ttl)
    (id typeName prompt answer : Str)
    (hfix : normalizeAnswer answer = answer) (hne : answer ≠ [])
    (r : Str) (hr : Rendering r answer) :
    verify C cfg now2 (buildChallenge C cfg now id typeName prompt answer).token
      (some r) = Except.ok ⟨true, none, some (Json.str typeName)⟩ := by
  unfold mkAgentChallenge at hcfg
  split at hcfg
  · exact absurd hcfg (by simp)
  · injection hcfg with h2
    subst h2
    unfold verify buildChallenge
    rw [decodeToken_encodeToken]
    have hnorm : normalizeAnswerVal (some r) = answer := normalizeAnswer_rendering hfix hr
    have hexp : jsField (challengePayload C ⟨secret, ttl, persistent⟩ now id typeName
        answer) (cs "expires_at") = some (Json.num (now + ttl)) := rfl
    have hah : jsField (challengePayload C ⟨secret, ttl, persistent⟩ now id typeName
        answer) (cs "answer_hash") = some (Json.str (hashAnswer C answer)) := rfl
    have hty : jsField (challengePayload C ⟨secret, ttl, persistent⟩ now id typeName
        answer) (cs "type") = some (Json.str typeName) := rfl
    have hnull : isNullJson (challengePayload C ⟨secret, ttl, persistent⟩ now id typeName
        answer) = false := rfl
    simp only [hnull, Bool.false_eq_true, if_false, hexp, hah, hty, hnorm, jsGtNum,
      jsToNumber, jsStrEq]
    rw [if_neg, if_neg hne, if_pos (by simp)]
    simp only [decide_eq_true_eq]
    omega

theorem c1_static_challenge_verifies_witness :
    verify toyCrypto toyCfg 100 (buildChallenge toyCrypto toyCfg 0 (cs "ch_1")
      (cs "reverse_string") (cs "p") (cs "nohtyp")).token
      (some (cs "  \x22NOHTYP\x22 ")) =
      Except.ok ⟨true, none, some (Json.str (cs "reverse_string"))⟩ :=
  c1_static_challenge_verifies toyCrypto (cs "secret12") 300 true toyCfg rfl 0 100
    (by decide) (cs "ch_1") (cs "reverse_string") (cs "p") (cs "nohtyp") (by decide)
    (by decide) (cs "  \x22NOHTYP\x22 ")
    ⟨cs "  ", cs " ", cs "NOHTYP", by unfold AllWs; decide, by unfold AllWs; decide,
      by decide, Or.inr ⟨'\x22', by decide, by decide⟩⟩

end AgentChallenge
